import Mathlib

/-!
Verification of the Fast-Bit-Counting benchmark kernels (count_bits.cpp).

The buffer is modelled as a memory `mem : Nat → Nat` (byte at each address,
values < 256 where it matters) together with an explicit `bufsize`.  Machine
integers are modelled as `Nat` with explicit reductions `% 2^64` wherever the
C code can wrap; `unsigned long` and `unsigned long long` are both 8 bytes on
the LP64 target the Makefile compiles for (g++, -march=native), so
`chunk_size = double_chunk_size = 8`.  Little-endian loads
(`*reinterpret_cast<chunk_t *>(...)`) assemble 8 consecutive bytes in
little-endian order.  OpenMP `parallel for` regions with a `reduction(+:...)`
clause are modelled by explicit per-thread contiguous iteration ranges whose
partial sums are added; the libgomp default static schedule is modelled for
the dual-kernel variant where the thread-to-iteration assignment matters.
-/

/-- Fuelled halving recursion computing the population count; `fuel ≥ n`
makes the fuel irrelevant. -/
def popcountAux : Nat → Nat → Nat
  | 0, _ => 0
  | fuel + 1, n => if n = 0 then 0 else n % 2 + popcountAux fuel (n / 2)

/-- Population count of a natural number: the mathematical reference. -/
def popcount (n : Nat) : Nat :=
  popcountAux n n

theorem popcountAux_zero (f : Nat) : popcountAux f 0 = 0 := by
  cases f <;> rfl

theorem popcountAux_congr : ∀ (f g n : Nat), n ≤ f → n ≤ g →
    popcountAux f n = popcountAux g n := by
  intro f
  induction f with
  | zero =>
    intro g n hf _
    interval_cases n
    rw [popcountAux_zero, popcountAux_zero]
  | succ f ih =>
    intro g n hf hg
    rcases Nat.eq_zero_or_pos n with h0 | h0
    · subst h0; rw [popcountAux_zero, popcountAux_zero]
    · obtain ⟨g', rfl⟩ : ∃ g', g = g' + 1 := ⟨g - 1, by omega⟩
      have hn : n ≠ 0 := by omega
      simp only [popcountAux, hn, if_false]
      have hdf : n / 2 ≤ f := by
        have := Nat.div_le_self n 2
        omega
      have hdg : n / 2 ≤ g' := by
        have := Nat.div_lt_self h0 Nat.one_lt_two
        omega
      exact congrArg _ (ih g' (n / 2) hdf hdg)

/-- The defining recurrence of `popcount`, free of fuel. -/
theorem popcount_eq (n : Nat) : popcount n = n % 2 + popcount (n / 2) := by
  rcases Nat.eq_zero_or_pos n with h0 | h0
  · subst h0; rfl
  · obtain ⟨m, rfl⟩ : ∃ m, n = m + 1 := ⟨n - 1, by omega⟩
    show popcountAux (m + 1) (m + 1) = _
    simp only [popcountAux, Nat.succ_ne_zero, if_false]
    refine congrArg _ (popcountAux_congr _ _ _ ?_ le_rfl)
    have := Nat.div_le_self (m + 1) 2
    omega

/-- Little-endian value of a list of bytes (base-256 digits). -/
def ofBytes : List Nat → Nat
  | [] => 0
  | b :: bs => b + 256 * ofBytes bs

/-- The word size of `chunk_t` (`sizeof(unsigned long)` on LP64). -/
def chunk_size : Nat := 8

/-- The word size of `double_chunk_t` (`sizeof(unsigned long long)` on LP64). -/
def double_chunk_size : Nat := 8

/-- The 8 bytes of the chunk loaded at byte offset `off` (little endian). -/
def chunk_bytes (mem : Nat → Nat) (off : Nat) : List Nat :=
  (List.range 8).map (fun j => mem (off + j))

/-- The value loaded by `*reinterpret_cast<chunk_t *>(buffer + off)`. -/
def chunk_at (mem : Nat → Nat) (off : Nat) : Nat :=
  ofBytes (chunk_bytes mem off)

/-- Pointer arithmetic `buffer + k` on the memory model. -/
def shiftMem (mem : Nat → Nat) (k : Nat) : Nat → Nat :=
  fun i => mem (k + i)

/-- Bits contributed by one byte, mirroring the inner loop of
`count_bits_naive`: test `buffer[byte] & (1 << bit)` for bits 0..7,
starting from accumulator `acc`. -/
def byteBitsFrom (b : Nat) (acc : Nat) : Nat :=
  (List.range 8).foldl (fun a bit => if b &&& (1 <<< bit) ≠ 0 then a + 1 else a) acc

/-- Embedding of `count_bits_naive`: iterate through the buffer one bit at
a time. -/
def count_bits_naive (mem : Nat → Nat) (bufsize : Nat) : Nat :=
  (List.range bufsize).foldl (fun acc byte => byteBitsFrom (mem byte) acc) 0

/-- Embedding of the `count_bits` template at `number_type = int`:
reinterpret the 4 bytes of the int (little endian) and count naively. -/
def count_bits_of_int (i : Nat) : Nat :=
  count_bits_naive (fun j => i / 256 ^ j % 256) 4

/-- Entry `i` of the static `lookup_table` after `init_lookup_table` ran:
the loop stores `count_bits(i)` at index `i` for `0 ≤ i < 256`. -/
def lookup_table (i : Nat) : Nat :=
  count_bits_of_int i

/-- Embedding of `table_kernel`: reinterpret the chunk as bytes (little
endian) and sum the table entries. -/
def table_kernel (chunk : Nat) : Nat :=
  (List.range 8).foldl (fun total byte => total + lookup_table (chunk / 256 ^ byte % 256)) 0

/-- Fuelled embedding of the loop of `kernighan_kernel`
(`while (chunk) { total++; chunk &= chunk - 1; }`); `none` means the fuel ran
out before the loop exited, so any `some` result certifies termination within
the given number of iterations.  The cast to signed `long` preserves the
64-bit pattern, and for `chunk ≠ 0` the decrement never wraps, so the body is
`chunk &&& (chunk - 1)` on the `Nat` pattern. -/
def kernighanLoop : Nat → Nat → Nat → Option Nat
  | fuel, chunk, total =>
    if chunk = 0 then some total
    else
      match fuel with
      | 0 => none
      | f + 1 => kernighanLoop f (chunk &&& (chunk - 1)) (total + 1)

/-- Embedding of `kernighan_kernel`: `chunk` iterations of fuel always
suffice because the value strictly decreases. -/
def kernighan_kernel (c : Nat) : Nat :=
  (kernighanLoop c c 0).getD 0

/-- The mask `~(chunk_t)0/3` (0x5555555555555555). -/
def B1 : Nat := (2 ^ 64 - 1) / 3

/-- The mask `~(chunk_t)0/15*3` (0x3333333333333333). -/
def B2 : Nat := (2 ^ 64 - 1) / 15 * 3

/-- The mask `~(chunk_t)0/255*15` (0x0f0f0f0f0f0f0f0f). -/
def B3 : Nat := (2 ^ 64 - 1) / 255 * 15

/-- The factor `~(chunk_t)0/255` (0x0101010101010101). -/
def B4 : Nat := (2 ^ 64 - 1) / 255

/-- The shift `(sizeof(chunk_t) - 1) * 8`. -/
def S1 : Nat := (8 - 1) * 8

/-- Arithmetic (sign-extending) right shift of a 64-bit pattern, the
behaviour of `>>` on a negative `long` under g++. -/
def asr64 (v s : Nat) : Nat :=
  if v < 2 ^ 63 then v >>> s else v >>> s + (2 ^ 64 - 2 ^ (64 - s))

/-- Two's-complement 64-bit subtraction of bit patterns. -/
def sub64 (a b : Nat) : Nat :=
  (a + (2 ^ 64 - b % 2 ^ 64)) % 2 ^ 64

/-- 64-bit wrapping addition of bit patterns. -/
def add64 (a b : Nat) : Nat :=
  (a + b) % 2 ^ 64

/-- The `_CBITSa` macro: `val = val - ((val >> 1) & B1)`. -/
def CBITSa (val : Nat) : Nat :=
  sub64 val (asr64 val 1 &&& B1)

/-- The `_CBITSb` macro: `val = (val & B2) + ((val >> 2) & B2)`. -/
def CBITSb (val : Nat) : Nat :=
  add64 (val &&& B2) (asr64 val 2 &&& B2)

/-- The `_CBITSc` macro: `val = (val + (val >> 4)) & B3`. -/
def CBITSc (val : Nat) : Nat :=
  add64 val (asr64 val 4) &&& B3

/-- The `_CBITS2` macro: `((chunk_t)(val * B4)) >> S1` (unsigned shift). -/
def CBITS2 (val : Nat) : Nat :=
  (val * B4 % 2 ^ 64) >>> S1

/-- Embedding of `sidewaysaddition_kernel`. -/
def sidewaysaddition_kernel (c : Nat) : Nat :=
  CBITS2 (CBITSc (CBITSb (CBITSa c)))

/-- Embedding of `intrinsic_kernel` (`__builtin_popcountl`). -/
def intrinsic_kernel (c : Nat) : Nat :=
  popcount c

/-- Embedding of `intrinsic_kernel_double` (`__builtin_popcountll`). -/
def intrinsic_kernel_double (c : Nat) : Nat :=
  popcount c

/-- Embedding of `count_bits_kernel<func>`: sequential semantics of the
chunked loop (`num_chunks` whole chunks through the kernel, the tail through
`count_bits_naive`); the OpenMP reduction is just this sum, see the
partition theorems below. -/
def count_bits_kernel (func : Nat → Nat) (mem : Nat → Nat) (bufsize : Nat) : Nat :=
  let num_chunks := bufsize / chunk_size
  let chunked_bufsize := num_chunks * chunk_size
  let leftover := bufsize - chunked_bufsize
  (List.range num_chunks).foldl
      (fun total i => total + func (chunk_at mem (i * chunk_size))) 0
    + count_bits_naive (shiftMem mem chunked_bufsize) leftover

/-- Embedding of `count_bits_kernel_double<func>` (`double_chunk_t` also has
8 bytes on the target). -/
def count_bits_kernel_double (func : Nat → Nat) (mem : Nat → Nat) (bufsize : Nat) : Nat :=
  let num_chunks := bufsize / double_chunk_size
  let chunked_bufsize := num_chunks * double_chunk_size
  let leftover := bufsize - chunked_bufsize
  (List.range num_chunks).foldl
      (fun total i => total + func (chunk_at mem (i * double_chunk_size))) 0
    + count_bits_naive (shiftMem mem chunked_bufsize) leftover

/-- Embedding of `count_bits_table`. -/
def count_bits_table (mem : Nat → Nat) (bufsize : Nat) : Nat :=
  count_bits_kernel table_kernel mem bufsize

/-- Embedding of `count_bits_kernighan`. -/
def count_bits_kernighan (mem : Nat → Nat) (bufsize : Nat) : Nat :=
  count_bits_kernel kernighan_kernel mem bufsize

/-- Embedding of `count_bits_sidewaysaddition`. -/
def count_bits_sidewaysaddition (mem : Nat → Nat) (bufsize : Nat) : Nat :=
  count_bits_kernel sidewaysaddition_kernel mem bufsize

/-- Embedding of `count_bits_intrinsic`. -/
def count_bits_intrinsic (mem : Nat → Nat) (bufsize : Nat) : Nat :=
  count_bits_kernel intrinsic_kernel mem bufsize

/-- Embedding of `count_bits_intrinsic_double`. -/
def count_bits_intrinsic_double (mem : Nat → Nat) (bufsize : Nat) : Nat :=
  count_bits_kernel_double intrinsic_kernel_double mem bufsize

/-- Start of the iteration slice the libgomp static schedule gives thread
`t` of a team of `T` threads for a loop of `n` iterations. -/
def static_chunk_start (t T n : Nat) : Nat :=
  t * (n / T) + min t (n % T)

/-- Size of the static-schedule slice of thread `t` of `T` for `n`
iterations. -/
def static_chunk_size (t T n : Nat) : Nat :=
  n / T + if t < n % T then 1 else 0

/-- Partial sum of one thread of the chunked loop: kernel applied to the
chunks with indices `start ≤ i < start + size`. -/
def threadSum (func : Nat → Nat) (mem : Nat → Nat) (start size : Nat) : Nat :=
  (List.range size).foldl
    (fun total j => total + func (chunk_at mem ((start + j) * chunk_size))) 0

/-- Embedding of `count_bits_kernel2<func, func2, numFunc1, numFunc2>` for a
team of `T` threads: threads with `thread_id < T / (numFunc1 + numFunc2)`
execute the first `omp for` loop (kernel `func`), all others the second
(kernel `func2`); each `omp for` hands thread `t` its static-schedule slice
of the `num_chunks` iterations, so the executed slices are the A-threads'
slices of loop one plus the B-threads' slices of loop two. -/
def count_bits_kernel2 (func func2 : Nat → Nat) (numFunc1 numFunc2 : Nat)
    (T : Nat) (mem : Nat → Nat) (bufsize : Nat) : Nat :=
  let num_chunks := bufsize / chunk_size
  let chunked_bufsize := num_chunks * chunk_size
  let leftover := bufsize - chunked_bufsize
  (List.range T).foldl
      (fun total t =>
        total +
          if t < T / (numFunc1 + numFunc2) then
            threadSum func mem (static_chunk_start t T num_chunks)
              (static_chunk_size t T num_chunks)
          else
            threadSum func2 mem (static_chunk_start t T num_chunks)
              (static_chunk_size t T num_chunks)) 0
    + count_bits_naive (shiftMem mem chunked_bufsize) leftover

/-- Embedding of `count_bits_optimized`:
`count_bits_kernel2<intrinsic_kernel, sidewaysaddition_kernel, 1, 1>`. -/
def count_bits_optimized (T : Nat) (mem : Nat → Nat) (bufsize : Nat) : Nat :=
  count_bits_kernel2 intrinsic_kernel sidewaysaddition_kernel 1 1 T mem bufsize

/-- The body of the inline-`asm` do/while loop of `count_bits_asm_chunked`:
`popcnt` one chunk, accumulate, advance the pointer, `loop` decrements the
iteration register and branches while it is nonzero.  The argument counts
the remaining iterations. -/
def asmLoop (mem : Nat → Nat) : Nat → Nat → Nat → Nat
  | _, 0, total => total
  | off, k + 1, total => asmLoop mem (off + chunk_size) k (total + popcount (chunk_at mem off))

/-- Embedding of `count_bits_asm_chunked`: guarded against zero iterations
(the `loop` instruction decrements before testing, so entering the do/while
with zero iterations would run the body 2^64 times). -/
def count_bits_asm_chunked (mem : Nat → Nat) (bufsize : Nat) : Nat :=
  let iterations := bufsize / chunk_size
  if iterations = 0 then 0 else asmLoop mem 0 iterations 0

/-- The bytes the `count_bits_asm` harness leaves to `count_bits_naive`:
`bufsize - num_cores * bufsize_per_core` as computed in the source. -/
def asm_leftover (bufsize num_cores : Nat) : Nat :=
  bufsize - num_cores * (bufsize / chunk_size / num_cores * chunk_size)

/-- Embedding of `count_bits_asm` for `num_cores` threads: each core runs
`count_bits_asm_chunked` on its own `bufsize_per_core` slice, the partial
sums are reduced by addition, and the leftover tail is counted naively. -/
def count_bits_asm (mem : Nat → Nat) (bufsize : Nat) (num_cores : Nat) : Nat :=
  let num_chunks := bufsize / chunk_size
  let chunks_per_core := num_chunks / num_cores
  let bufsize_per_core := chunks_per_core * chunk_size
  let chunked_bufsize := num_cores * bufsize_per_core
  (List.range num_cores).foldl
      (fun total core =>
        total + count_bits_asm_chunked (shiftMem mem (core * bufsize_per_core)) bufsize_per_core)
      0
    + count_bits_naive (shiftMem mem chunked_bufsize) (bufsize - chunked_bufsize)

/-- One contiguous per-thread partial sum per entry of `sizes`: entry `t`
covers the `sizes[t]` chunk indices starting where entry `t - 1` stopped.
This models an arbitrary partition of the chunk range of
`count_bits_kernel` into contiguous, non-overlapping per-thread ranges. -/
def partialSums (func : Nat → Nat) (mem : Nat → Nat) : Nat → List Nat → List Nat
  | _, [] => []
  | start, s :: rest => threadSum func mem start s :: partialSums func mem (start + s) rest

/-- The chunked loop of `count_bits_kernel` run by a team whose thread `t`
owns `sizes[t]` consecutive chunks, partial sums combined by the
`reduction (+ : total)` clause, plus the naive tail. -/
def count_bits_kernel_threads (func : Nat → Nat) (mem : Nat → Nat) (bufsize : Nat)
    (sizes : List Nat) : Nat :=
  let num_chunks := bufsize / chunk_size
  let chunked_bufsize := num_chunks * chunk_size
  let leftover := bufsize - chunked_bufsize
  (partialSums func mem 0 sizes).sum
    + count_bits_naive (shiftMem mem chunked_bufsize) leftover

/-- A memory access performed on the buffer. -/
inductive MemEvent where
  | read : Nat → MemEvent
  | write : Nat → Nat → MemEvent
deriving DecidableEq

/-- The buffer address an event touches. -/
def MemEvent.addr : MemEvent → Nat
  | .read a => a
  | .write a _ => a

/-- Replay the write events of a trace against a memory; reads change
nothing. -/
def replayWrites (evs : List MemEvent) (mem : Nat → Nat) : Nat → Nat :=
  evs.foldl
    (fun m e =>
      match e with
      | .read _ => m
      | .write a v => fun i => if i = a then v else m i)
    mem

/-- Buffer accesses of `count_bits_naive(buffer + off, n)`: each of the `n`
bytes is loaded once per bit test of the inner loop. -/
def naive_accesses (off n : Nat) : List MemEvent :=
  (List.range n).flatMap (fun i => List.replicate 8 (MemEvent.read (off + i)))

/-- Buffer accesses of one chunk load at byte offset `off`. -/
def chunk_accesses (off : Nat) : List MemEvent :=
  (List.range 8).map (fun j => MemEvent.read (off + j))

/-- Buffer accesses of `count_bits_kernel` (and of `count_bits_kernel_double`,
which has the same chunk size) on a buffer of `n` bytes. -/
def kernel_accesses (n : Nat) : List MemEvent :=
  (List.range (n / chunk_size)).flatMap (fun i => chunk_accesses (i * chunk_size))
    ++ naive_accesses (n / chunk_size * chunk_size) (n - n / chunk_size * chunk_size)

/-- Buffer accesses of `count_bits_kernel2` for a team of `T` threads: each
thread walks its static-schedule slice in one of the two loops, then the
naive tail. -/
def kernel2_accesses (T n : Nat) : List MemEvent :=
  (List.range T).flatMap
      (fun t =>
        (List.range (static_chunk_size t T (n / chunk_size))).flatMap
          (fun j => chunk_accesses ((static_chunk_start t T (n / chunk_size) + j) * chunk_size)))
    ++ naive_accesses (n / chunk_size * chunk_size) (n - n / chunk_size * chunk_size)

/-- Buffer accesses of `count_bits_asm_chunked(buffer + off, n)`: guarded,
then one chunk load per `loop` iteration. -/
def asm_chunked_accesses (off n : Nat) : List MemEvent :=
  if n / chunk_size = 0 then []
  else (List.range (n / chunk_size)).flatMap (fun i => chunk_accesses (off + i * chunk_size))

/-- Buffer accesses of `count_bits_asm` for `num_cores` threads. -/
def asm_accesses (n num_cores : Nat) : List MemEvent :=
  (List.range num_cores).flatMap
      (fun core =>
        asm_chunked_accesses (core * (n / chunk_size / num_cores * chunk_size))
          (n / chunk_size / num_cores * chunk_size))
    ++ naive_accesses (num_cores * (n / chunk_size / num_cores * chunk_size))
        (n - num_cores * (n / chunk_size / num_cores * chunk_size))

/-- C `isspace` on the default locale, as used by `atol`. -/
def c_isspace (c : Char) : Bool :=
  c = ' ' ∨ c = '\t' ∨ c = '\n' ∨ c = '\x0b' ∨ c = '\x0c' ∨ c = '\r'

/-- Maximal leading run of decimal digits, accumulated left to right. -/
def parseDigits : List Char → Nat → Nat
  | [], acc => acc
  | c :: rest, acc =>
    if c.isDigit then parseDigits rest (acc * 10 + (c.toNat - 48)) else acc

/-- The sign-and-digits part of `atol` after whitespace has been skipped. -/
def atolSigned : List Char → Int
  | [] => 0
  | c :: rest =>
    if c = '-' then -(parseDigits rest 0 : Int)
    else if c = '+' then (parseDigits rest 0 : Int)
    else (parseDigits (c :: rest) 0 : Int)

/-- Embedding of `atol(argv[1])`: skip whitespace, optional sign, maximal
digit run; no digits yields 0. -/
def atol : List Char → Int
  | [] => 0
  | c :: rest => if c_isspace c then atol rest else atolSigned (c :: rest)

/-- The `megs_of_data` value `main` ends up with: 100 when no argument is
given, otherwise `atol(argv[1])` converted to `size_t` (reduction mod 2^64
of the two's-complement value). -/
def megs_of_data (arg : Option (List Char)) : Nat :=
  match arg with
  | none => 100
  | some s => (atol s % (2 ^ 64 : Int)).toNat

/-- Whether `main` prints the usage message to `cerr`: exactly the
`if (!megs_of_data)` branch. -/
def usage_printed (arg : Option (List Char)) : Bool :=
  megs_of_data arg = 0

/-- The process exit status of `main` as far as argument handling decides
it: `-1` from the usage branch, else 0. -/
def main_exit_code (arg : Option (List Char)) : Int :=
  if megs_of_data arg = 0 then -1 else 0

theorem foldl_range_add (f : Nat → Nat) (n a : Nat) :
    (List.range n).foldl (fun acc i => acc + f i) a = a + ∑ i ∈ Finset.range n, f i := by
  induction n with
  | zero => simp
  | succ n ih =>
    rw [List.range_succ, List.foldl_append, ih, Finset.sum_range_succ]
    simp [Nat.add_assoc]

theorem foldl_count_shift (P : Nat → Prop) [DecidablePred P] (l : List Nat) (a : Nat) :
    l.foldl (fun acc x => if P x then acc + 1 else acc) a
      = a + l.foldl (fun acc x => if P x then acc + 1 else acc) 0 := by
  induction l generalizing a with
  | nil => simp
  | cons x l ih =>
    by_cases h : P x
    · simp only [List.foldl_cons, h, if_true, Nat.zero_add]
      rw [ih, ih 1]
      omega
    · simp only [List.foldl_cons, h, if_false, Nat.zero_add]
      exact ih a

@[simp] theorem popcount_zero : popcount 0 = 0 := rfl

/-- Bits of one byte, accumulator at zero. -/
def byteBits (b : Nat) : Nat :=
  byteBitsFrom b 0

theorem byteBitsFrom_eq (b acc : Nat) : byteBitsFrom b acc = acc + byteBits b := by
  unfold byteBitsFrom byteBits
  exact foldl_count_shift (fun bit => b &&& (1 <<< bit) ≠ 0) _ acc

theorem count_bits_naive_eq_sum (mem : Nat → Nat) (n : Nat) :
    count_bits_naive mem n = ∑ i ∈ Finset.range n, byteBits (mem i) := by
  unfold count_bits_naive
  have h : ∀ a, (List.range n).foldl (fun acc byte => byteBitsFrom (mem byte) acc) a
      = (List.range n).foldl (fun acc byte => acc + byteBits (mem byte)) a := by
    induction n with
    | zero => intro a; simp
    | succ n ih =>
      intro a
      rw [List.range_succ, List.foldl_append, List.foldl_append, ih]
      simp [byteBitsFrom_eq]
  rw [h 0, foldl_range_add (fun i => byteBits (mem i)) n 0, Nat.zero_add]

set_option maxRecDepth 4000 in
theorem byteBits_eq_popcount : ∀ b < 256, byteBits b = popcount b := by
  decide

theorem popcount_two_mul_add (m r : Nat) (hr : r < 2) :
    popcount (2 * m + r) = popcount m + r := by
  rw [popcount_eq]
  have h1 : (2 * m + r) % 2 = r := by omega
  have h2 : (2 * m + r) / 2 = m := by omega
  rw [h1, h2, Nat.add_comm]

theorem popcount_add_pow_mul : ∀ (k a b : Nat), a < 2 ^ k →
    popcount (a + 2 ^ k * b) = popcount a + popcount b := by
  intro k
  induction k with
  | zero =>
    intro a b ha
    interval_cases a
    simp
  | succ k ih =>
    intro a b ha
    have hp : 2 ^ (k + 1) * b = 2 * (2 ^ k * b) := by ring
    have key : a + 2 ^ (k + 1) * b = 2 * (a / 2 + 2 ^ k * b) + a % 2 := by
      rw [hp]
      omega
    have ha2 : a / 2 < 2 ^ k := by
      rw [Nat.pow_succ] at ha
      omega
    rw [key, popcount_two_mul_add _ _ (Nat.mod_lt a (by omega)), ih _ _ ha2]
    have hx : popcount a = popcount (a / 2) + a % 2 := by
      rw [popcount_eq]
      omega
    omega

theorem popcount_ofBytes : ∀ (bs : List Nat), (∀ b ∈ bs, b < 256) →
    popcount (ofBytes bs) = (bs.map popcount).sum := by
  intro bs
  induction bs with
  | nil => intro _; simp [ofBytes]
  | cons b bs ih =>
    intro h
    have hb : b < 256 := h b (List.mem_cons_self b bs)
    have hbs : ∀ x ∈ bs, x < 256 := fun x hx => h x (List.mem_cons_of_mem b hx)
    show popcount (b + 256 * ofBytes bs) = _
    have h256 : (256 : Nat) = 2 ^ 8 := by norm_num
    rw [h256] at hb ⊢
    rw [popcount_add_pow_mul 8 b (ofBytes bs) hb, ih hbs]
    simp

theorem ofBytes_lt : ∀ (bs : List Nat), (∀ b ∈ bs, b < 256) →
    ofBytes bs < 256 ^ bs.length := by
  intro bs
  induction bs with
  | nil => intro _; simp [ofBytes]
  | cons b bs ih =>
    intro h
    have hb : b < 256 := h b (List.mem_cons_self b bs)
    have := ih fun x hx => h x (List.mem_cons_of_mem b hx)
    show b + 256 * ofBytes bs < 256 ^ (bs.length + 1)
    rw [Nat.pow_succ]
    omega

theorem land_split (k a b c d : Nat) (ha : a < 2 ^ k) (hc : c < 2 ^ k) :
    (a + 2 ^ k * b) &&& (c + 2 ^ k * d) = (a &&& c) + 2 ^ k * (b &&& d) := by
  have hac : a &&& c < 2 ^ k := Nat.and_lt_two_pow a hc
  apply Nat.eq_of_testBit_eq
  intro j
  rw [Nat.add_comm a, Nat.add_comm c, Nat.add_comm (a &&& c), Nat.testBit_and,
    Nat.testBit_mul_pow_two_add _ ha, Nat.testBit_mul_pow_two_add _ hc,
    Nat.testBit_mul_pow_two_add _ hac]
  by_cases hj : j < k
  · simp [hj]
  · simp [hj]

theorem ofBytes_and_mask (m : Nat) (hm : m < 256) : ∀ (bs : List Nat),
    (∀ b ∈ bs, b < 256) →
    ofBytes bs &&& ofBytes (List.replicate bs.length m) = ofBytes (bs.map (· &&& m)) := by
  intro bs
  induction bs with
  | nil => intro _; simp [ofBytes]
  | cons b bs ih =>
    intro h
    have hb : b < 256 := h b (List.mem_cons_self b bs)
    show (b + 256 * ofBytes bs) &&& (m + 256 * ofBytes (List.replicate bs.length m))
        = (b &&& m) + 256 * ofBytes (bs.map (· &&& m))
    have h256 : (256 : Nat) = 2 ^ 8 := by norm_num
    rw [h256] at hb hm ⊢
    rw [land_split 8 _ _ _ _ hb hm, ih fun x hx => h x (List.mem_cons_of_mem b hx)]

theorem ofBytes_add : ∀ (bs cs : List Nat), bs.length = cs.length →
    ofBytes bs + ofBytes cs = ofBytes (List.zipWith (· + ·) bs cs) := by
  intro bs
  induction bs with
  | nil =>
    intro cs h
    match cs with
    | [] => simp [ofBytes]
  | cons b bs ih =>
    intro cs h
    match cs with
    | [] => simp at h
    | c :: cs =>
      show b + 256 * ofBytes bs + (c + 256 * ofBytes cs) = (b + c) + 256 * ofBytes (List.zipWith (· + ·) bs cs)
      rw [← ih cs (by simpa using h)]
      ring

theorem ofBytes_map_le (g : Nat → Nat) (hg : ∀ b, g b ≤ b) : ∀ (bs : List Nat),
    ofBytes (bs.map g) ≤ ofBytes bs := by
  intro bs
  induction bs with
  | nil => simp
  | cons b bs ih =>
    show g b + 256 * ofBytes (bs.map g) ≤ b + 256 * ofBytes bs
    have := hg b
    omega

theorem ofBytes_sub_map (g : Nat → Nat) (hg : ∀ b, g b ≤ b) : ∀ (bs : List Nat),
    ofBytes bs - ofBytes (bs.map g) = ofBytes (bs.map (fun b => b - g b)) := by
  intro bs
  induction bs with
  | nil => simp [ofBytes]
  | cons b bs ih =>
    show b + 256 * ofBytes bs - (g b + 256 * ofBytes (bs.map g))
        = (b - g b) + 256 * ofBytes (bs.map (fun x => x - g x))
    have h1 := hg b
    have h2 := ofBytes_map_le g hg bs
    omega

/-- Per-byte little-endian digits of a logical right shift by `s ≤ 8` bits:
each byte keeps its own high bits and receives the next byte's low bits. -/
def shrBytes (s : Nat) : List Nat → List Nat
  | [] => []
  | [b] => [b / 2 ^ s]
  | b :: c :: rest => (b / 2 ^ s + c % 2 ^ s * 2 ^ (8 - s)) :: shrBytes s (c :: rest)

theorem shrBytes_length (s : Nat) : ∀ bs, (shrBytes s bs).length = bs.length := by
  intro bs
  induction bs with
  | nil => rfl
  | cons b bs ih =>
    match bs, ih with
    | [], _ => rfl
    | c :: rest, ih => simpa [shrBytes] using ih

theorem ofBytes_shr (s : Nat) (hs : s ≤ 8) : ∀ (bs : List Nat), (∀ b ∈ bs, b < 256) →
    ofBytes bs / 2 ^ s = ofBytes (shrBytes s bs) := by
  have hpow : 2 ^ s * 2 ^ (8 - s) = 256 := by
    rw [← Nat.pow_add]
    have h8 : s + (8 - s) = 8 := by omega
    rw [h8]
  intro bs
  induction bs with
  | nil => intro _; simp [ofBytes, shrBytes]
  | cons b bs ih =>
    intro h
    match bs, ih with
    | [], _ =>
      show (b + 256 * 0) / 2 ^ s = ofBytes [b / 2 ^ s]
      simp [ofBytes]
    | c :: rest, ih =>
      have hc : c < 256 := h c (by simp)
      set W := ofBytes (c :: rest) with hW
      have hWmod : W % 2 ^ s = c % 2 ^ s := by
        have hdvd : 2 ^ s ∣ 256 := ⟨2 ^ (8 - s), hpow.symm⟩
        show (c + 256 * ofBytes rest) % 2 ^ s = c % 2 ^ s
        obtain ⟨t, ht⟩ := hdvd
        rw [ht]
        rw [Nat.mul_assoc, Nat.add_mul_mod_self_left]
      have hsplit : (256 : Nat) * W = 2 ^ s * (2 ^ (8 - s) * (W % 2 ^ s) + 256 * (W / 2 ^ s)) := by
        have hWeq : W = W % 2 ^ s + 2 ^ s * (W / 2 ^ s) := (Nat.mod_add_div W (2 ^ s)).symm
        calc 256 * W = 256 * (W % 2 ^ s) + 256 * (2 ^ s * (W / 2 ^ s)) := by rw [← Nat.mul_add, ← hWeq]
        _ = 2 ^ s * (2 ^ (8 - s) * (W % 2 ^ s)) + 2 ^ s * (256 * (W / 2 ^ s)) := by
              rw [← hpow]; ring
        _ = _ := by ring
      show (b + 256 * W) / 2 ^ s = ofBytes ((b / 2 ^ s + c % 2 ^ s * 2 ^ (8 - s)) :: shrBytes s (c :: rest))
      rw [hsplit, Nat.add_mul_div_left _ _ (Nat.two_pow_pos s)]
      show _ = (b / 2 ^ s + c % 2 ^ s * 2 ^ (8 - s)) + 256 * ofBytes (shrBytes s (c :: rest))
      rw [← ih fun x hx => h x (List.mem_cons_of_mem b hx), hWmod]
      ring

theorem ofBytes_digits : ∀ (k v : Nat),
    ofBytes ((List.range k).map fun j => v / 256 ^ j % 256) = v % 256 ^ k := by
  intro k
  induction k with
  | zero => intro v; simp [ofBytes, Nat.mod_one]
  | succ k ih =>
    intro v
    rw [List.range_succ_eq_map]
    simp only [List.map_cons, List.map_map]
    have hcomp : ((fun j => v / 256 ^ j % 256) ∘ Nat.succ) = fun j => v / 256 / 256 ^ j % 256 := by
      funext j
      simp [Function.comp, Nat.pow_succ, Nat.div_div_eq_div_mul]
      rw [Nat.mul_comm (256 ^ j) 256, ← Nat.div_div_eq_div_mul]
    rw [hcomp]
    show v / 256 ^ 0 % 256 + 256 * ofBytes ((List.range k).map fun j => v / 256 / 256 ^ j % 256)
        = v % 256 ^ (k + 1)
    rw [ih (v / 256)]
    rw [Nat.pow_succ, Nat.mul_comm (256 ^ k) 256, Nat.mod_mul]
    simp

theorem and_add_pow_mul (k x t m : Nat) (hx : x < 2 ^ k) (hm : m < 2 ^ k) :
    (x + 2 ^ k * t) &&& m = x &&& m := by
  have h := land_split k x t m 0 hx hm
  simpa using h

theorem ofBytes_le_replicate (c : Nat) : ∀ (bs : List Nat), (∀ b ∈ bs, b ≤ c) →
    ofBytes bs ≤ ofBytes (List.replicate bs.length c) := by
  intro bs
  induction bs with
  | nil => intro _; simp
  | cons b bs ih =>
    intro h
    have hb : b ≤ c := h b (List.mem_cons_self b bs)
    have ht := ih fun x hx => h x (List.mem_cons_of_mem b hx)
    show b + 256 * ofBytes bs ≤ c + 256 * ofBytes (List.replicate bs.length c)
    omega

theorem shrBytes_bytes_lt (s : Nat) (hs : s ≤ 8) : ∀ (bs : List Nat),
    (∀ b ∈ bs, b < 256) → ∀ d ∈ shrBytes s bs, d < 256 := by
  have hpow : 2 ^ s * 2 ^ (8 - s) = 256 := by
    rw [← Nat.pow_add]
    have h8 : s + (8 - s) = 8 := by omega
    rw [h8]
  intro bs
  induction bs with
  | nil => intro _ d hd; simp [shrBytes] at hd
  | cons b bs ih =>
    intro h d hd
    match bs, ih, hd with
    | [], _, hd =>
      simp only [shrBytes, List.mem_singleton] at hd
      subst hd
      have hb : b < 256 := h b (by simp)
      have := Nat.div_le_self b (2 ^ s)
      omega
    | c :: rest, ih, hd =>
      simp only [shrBytes, List.mem_cons] at hd
      rcases hd with hd | hd
      · subst hd
        have hb : b < 256 := h b (by simp)
        have hdiv : b / 2 ^ s < 2 ^ (8 - s) := by
          apply Nat.div_lt_of_lt_mul
          rw [hpow]
          exact hb
        have hmod : c % 2 ^ s ≤ 2 ^ s - 1 := by
          have := Nat.mod_lt c (Nat.two_pow_pos s)
          omega
        have : c % 2 ^ s * 2 ^ (8 - s) ≤ (2 ^ s - 1) * 2 ^ (8 - s) :=
          Nat.mul_le_mul_right _ hmod
        have hs1 : (2 ^ s - 1) * 2 ^ (8 - s) = 256 - 2 ^ (8 - s) := by
          rw [Nat.sub_mul, Nat.one_mul, hpow]
        have he : 2 ^ (8 - s) ≤ 256 := by
          calc 2 ^ (8 - s) ≤ 2 ^ 8 := Nat.pow_le_pow_right (by omega) (by omega)
          _ = 256 := by norm_num
        omega
      · exact ih (fun x hx => h x (List.mem_cons_of_mem b hx)) d hd

theorem shrBytes_map_and (s m : Nat)
    (hkill : ∀ b < 256, ∀ t < 2 ^ s, (b / 2 ^ s + t * 2 ^ (8 - s)) &&& m = b / 2 ^ s &&& m) :
    ∀ (bs : List Nat), (∀ b ∈ bs, b < 256) →
    (shrBytes s bs).map (· &&& m) = bs.map (fun b => b / 2 ^ s &&& m) := by
  intro bs
  induction bs with
  | nil => intro _; rfl
  | cons b bs ih =>
    intro h
    match bs, ih with
    | [], _ => rfl
    | c :: rest, ih =>
      have hb : b < 256 := h b (by simp)
      have hc : c < 256 := h c (by simp)
      simp only [shrBytes, List.map_cons]
      rw [hkill b hb (c % 2 ^ s) (Nat.mod_lt c (Nat.two_pow_pos s))]
      have htail := ih fun x hx => h x (List.mem_cons_of_mem b hx)
      simp only [List.map_cons] at htail
      rw [← htail]

theorem zipWith_map_same {α β : Type} (f : β → β → α) (g h : Nat → β) :
    ∀ (l : List Nat), List.zipWith f (l.map g) (l.map h) = l.map (fun x => f (g x) (h x)) := by
  intro l
  induction l with
  | nil => rfl
  | cons x l ih => simp [ih]

theorem sub64_eq_sub (a b : Nat) (hb : b ≤ a) (ha : a < 2 ^ 64) : sub64 a b = a - b := by
  unfold sub64
  have hblt : b < 2 ^ 64 := lt_of_le_of_lt hb ha
  have hbm : b % 2 ^ 64 = b := Nat.mod_eq_of_lt hblt
  rw [hbm]
  omega

theorem add64_eq_add (a b : Nat) (h : a + b < 2 ^ 64) : add64 a b = a + b := by
  unfold add64
  omega

/-- Per-byte effect of `_CBITSa`: each byte counts its 2-bit fields. -/
def fa (b : Nat) : Nat := b - (b / 2 &&& 85)

/-- Per-byte effect of `_CBITSb`: 4-bit fields hold sums of 2-bit fields. -/
def fb (b : Nat) : Nat := (b &&& 51) + (b / 4 &&& 51)

/-- Per-byte effect of `_CBITSc`: the byte holds the sum of its nibbles. -/
def fc (b : Nat) : Nat := (b + b / 16) &&& 15

theorem B1_lt : B1 < 2 ^ 63 := by decide

theorem B2_lt : B2 < 2 ^ 62 := by decide

theorem asr64_and_B1 (v : Nat) (hv : v < 2 ^ 64) : asr64 v 1 &&& B1 = v / 2 &&& B1 := by
  unfold asr64
  by_cases h : v < 2 ^ 63
  · rw [if_pos h, Nat.shiftRight_eq_div_pow, Nat.pow_one]
  · rw [if_neg h, Nat.shiftRight_eq_div_pow, Nat.pow_one]
    have he : 2 ^ 64 - 2 ^ (64 - 1) = 2 ^ 63 * 1 := by norm_num
    rw [he]
    exact and_add_pow_mul 63 (v / 2) 1 B1 (by omega) B1_lt

theorem asr64_and_B2 (v : Nat) (hv : v < 2 ^ 64) : asr64 v 2 &&& B2 = v / 4 &&& B2 := by
  unfold asr64
  by_cases h : v < 2 ^ 63
  · rw [if_pos h, Nat.shiftRight_eq_div_pow]
  · rw [if_neg h, Nat.shiftRight_eq_div_pow]
    have he : 2 ^ 64 - 2 ^ (64 - 2) = 2 ^ 62 * 3 := by norm_num
    rw [he]
    have h4 : (2 : Nat) ^ 2 = 4 := by norm_num
    rw [h4]
    exact and_add_pow_mul 62 (v / 4) 3 B2 (by omega) B2_lt

theorem ofBytes_length8_lt (bs : List Nat) (hlen : bs.length = 8)
    (h : ∀ b ∈ bs, b < 256) : ofBytes bs < 2 ^ 64 := by
  have := ofBytes_lt bs h
  rw [hlen] at this
  calc ofBytes bs < 256 ^ 8 := this
  _ = 2 ^ 64 := by norm_num

set_option maxRecDepth 10000 in
theorem CBITSa_bytes (bs : List Nat) (hlen : bs.length = 8) (h : ∀ b ∈ bs, b < 256) :
    CBITSa (ofBytes bs) = ofBytes (bs.map fa) := by
  have hv : ofBytes bs < 2 ^ 64 := ofBytes_length8_lt bs hlen h
  have hkill : ∀ b < 256, ∀ t < 2 ^ 1, (b / 2 ^ 1 + t * 2 ^ (8 - 1)) &&& 85 = b / 2 ^ 1 &&& 85 := by
    decide
  have hB1 : B1 = ofBytes (List.replicate 8 85) := by decide
  have hshr : (shrBytes 1 bs).length = 8 := by rw [shrBytes_length, hlen]
  have hg : ∀ b, (fun x => x / 2 ^ 1 &&& 85) b ≤ b := by
    intro b
    calc b / 2 ^ 1 &&& 85 ≤ b / 2 ^ 1 := Nat.and_le_left
    _ ≤ b := Nat.div_le_self b _
  unfold CBITSa
  rw [asr64_and_B1 _ hv]
  have h2 : ofBytes bs / 2 = ofBytes bs / 2 ^ 1 := by norm_num
  rw [h2, ofBytes_shr 1 (by omega) bs h, hB1, ← hshr,
    ofBytes_and_mask 85 (by norm_num) _ (shrBytes_bytes_lt 1 (by omega) bs h),
    shrBytes_map_and 1 85 hkill bs h]
  have hle : ofBytes (bs.map fun b => b / 2 ^ 1 &&& 85) ≤ ofBytes bs :=
    ofBytes_map_le _ hg bs
  rw [sub64_eq_sub _ _ hle hv, ofBytes_sub_map _ hg bs]
  have hfa : (fun b => b - (b / 2 ^ 1 &&& 85)) = fa := by
    funext b
    norm_num [fa]
  rw [hfa]

set_option maxRecDepth 40000 in
theorem CBITSb_bytes (bs : List Nat) (hlen : bs.length = 8) (h : ∀ b ∈ bs, b < 256) :
    CBITSb (ofBytes bs) = ofBytes (bs.map fb) := by
  have hv : ofBytes bs < 2 ^ 64 := ofBytes_length8_lt bs hlen h
  have hkill : ∀ b < 256, ∀ t < 2 ^ 2, (b / 2 ^ 2 + t * 2 ^ (8 - 2)) &&& 51 = b / 2 ^ 2 &&& 51 := by
    decide
  have hB2 : B2 = ofBytes (List.replicate 8 51) := by decide
  have hshr : (shrBytes 2 bs).length = 8 := by rw [shrBytes_length, hlen]
  unfold CBITSb
  rw [asr64_and_B2 _ hv]
  have h4 : ofBytes bs / 4 = ofBytes bs / 2 ^ 2 := by norm_num
  rw [h4, ofBytes_shr 2 (by omega) bs h]
  rw [hB2]
  have hmask1 : ofBytes bs &&& ofBytes (List.replicate 8 51)
      = ofBytes (bs.map (· &&& 51)) := by
    rw [← hlen]
    exact ofBytes_and_mask 51 (by norm_num) bs h
  have hmask2 : ofBytes (shrBytes 2 bs) &&& ofBytes (List.replicate 8 51)
      = ofBytes (bs.map fun b => b / 2 ^ 2 &&& 51) := by
    rw [← hshr,
      ofBytes_and_mask 51 (by norm_num) _ (shrBytes_bytes_lt 2 (by omega) bs h),
      shrBytes_map_and 2 51 hkill bs h]
  rw [hmask1, hmask2]
  have hsum : ofBytes (bs.map (· &&& 51)) + ofBytes (bs.map fun b => b / 2 ^ 2 &&& 51)
      = ofBytes (bs.map fb) := by
    rw [ofBytes_add _ _ (by simp), zipWith_map_same]
    have hfb : (fun x => (x &&& 51) + (x / 2 ^ 2 &&& 51)) = fb := by
      funext b
      norm_num [fb]
    rw [hfb]
  rw [add64_eq_add, hsum]
  rw [hsum]
  apply ofBytes_length8_lt _ (by rw [List.length_map, hlen])
  intro d hd
  obtain ⟨b, _, rfl⟩ := List.mem_map.mp hd
  have h1 : fb b ≤ 102 := by
    unfold fb
    have ha : b &&& 51 ≤ 51 := Nat.and_le_right
    have hb : b / 4 &&& 51 ≤ 51 := Nat.and_le_right
    omega
  omega

theorem stagec_map_and : ∀ (bs : List Nat),
    (List.zipWith (· + ·) bs (shrBytes 4 bs)).map (· &&& 15) = bs.map fc := by
  intro bs
  induction bs with
  | nil => rfl
  | cons b bs ih =>
    match bs, ih with
    | [], _ =>
      show [(b + b / 2 ^ 4) &&& 15] = [fc b]
      norm_num [fc]
    | c :: rest, ih =>
      show ((b + (b / 2 ^ 4 + c % 2 ^ 4 * 2 ^ (8 - 4))) &&& 15)
            :: (List.zipWith (· + ·) (c :: rest) (shrBytes 4 (c :: rest))).map (· &&& 15)
          = fc b :: (c :: rest).map fc
      rw [ih]
      have hhead : (b + (b / 2 ^ 4 + c % 2 ^ 4 * 2 ^ (8 - 4))) &&& 15 = fc b := by
        have h15 : (15 : Nat) = 2 ^ 4 - 1 := by norm_num
        unfold fc
        rw [h15, Nat.and_pow_two_sub_one_eq_mod, Nat.and_pow_two_sub_one_eq_mod]
        have hb : b + (b / 2 ^ 4 + c % 2 ^ 4 * 2 ^ (8 - 4))
            = (b + b / 16) + c % 2 ^ 4 * 16 := by norm_num; ring
        rw [hb, Nat.add_mul_mod_self_right]
      rw [hhead]

theorem stagec_digits_lt : ∀ (bs : List Nat), (∀ b ∈ bs, b % 16 ≤ 6 ∧ b / 16 ≤ 6) →
    ∀ d ∈ List.zipWith (· + ·) bs (shrBytes 4 bs), d < 256 := by
  intro bs
  induction bs with
  | nil => intro _ d hd; simp at hd
  | cons b bs ih =>
    intro h d hd
    have hb := h b (by simp)
    have hble : b ≤ 102 := by omega
    match bs, ih, hd with
    | [], _, hd =>
      have hd2 : d ∈ [b + b / 2 ^ 4] := hd
      have : d = b + b / 2 ^ 4 := by simpa using hd2
      subst this
      norm_num
      omega
    | c :: rest, ih, hd =>
      have hc := h c (by simp)
      have hd2 : d ∈ (b + (b / 2 ^ 4 + c % 2 ^ 4 * 2 ^ (8 - 4)))
          :: List.zipWith (· + ·) (c :: rest) (shrBytes 4 (c :: rest)) := hd
      rcases List.mem_cons.mp hd2 with hhd | hhd
      · subst hhd
        have h1 : b / 2 ^ 4 = b / 16 := by norm_num
        have h2 : c % 2 ^ 4 = c % 16 := by norm_num
        have h3 : (2 : Nat) ^ (8 - 4) = 16 := by norm_num
        rw [h1, h2, h3]
        omega
      · exact ih (fun x hx => h x (List.mem_cons_of_mem b hx)) d hhd

theorem CBITSc_bytes (bs : List Nat) (hlen : bs.length = 8)
    (h : ∀ b ∈ bs, b % 16 ≤ 6 ∧ b / 16 ≤ 6) :
    CBITSc (ofBytes bs) = ofBytes (bs.map fc) := by
  have hlt : ∀ b ∈ bs, b < 256 := by
    intro b hb
    have := h b hb
    omega
  have h102 : ∀ b ∈ bs, b ≤ 102 := by
    intro b hb
    have := h b hb
    omega
  have hv63 : ofBytes bs < 2 ^ 63 := by
    have h1 := ofBytes_le_replicate 102 bs h102
    rw [hlen] at h1
    have h2 : ofBytes (List.replicate 8 102) < 2 ^ 63 := by decide
    omega
  have hshr : ofBytes (shrBytes 4 bs) = ofBytes bs / 2 ^ 4 :=
    (ofBytes_shr 4 (by omega) bs hlt).symm
  have hzlen : (List.zipWith (· + ·) bs (shrBytes 4 bs)).length = 8 := by
    rw [List.length_zipWith, shrBytes_length, hlen]
    exact Nat.min_self 8
  unfold CBITSc
  have hasr : asr64 (ofBytes bs) 4 = ofBytes bs / 2 ^ 4 := by
    unfold asr64
    rw [if_pos hv63, Nat.shiftRight_eq_div_pow]
  rw [hasr, ← hshr]
  have hadd : add64 (ofBytes bs) (ofBytes (shrBytes 4 bs))
      = ofBytes (List.zipWith (· + ·) bs (shrBytes 4 bs)) := by
    rw [add64_eq_add, ofBytes_add _ _ (by rw [shrBytes_length])]
    have hb2 : ofBytes (shrBytes 4 bs) ≤ ofBytes bs := by
      rw [hshr]
      exact Nat.div_le_self _ _
    omega
  rw [hadd]
  have hB3 : B3 = ofBytes (List.replicate 8 15) := by decide
  rw [hB3, ← hzlen,
    ofBytes_and_mask 15 (by norm_num) _ (stagec_digits_lt bs h),
    stagec_map_and bs]

theorem CBITS2_sum (ts : List Nat) (hlen : ts.length = 8) (h : ∀ t ∈ ts, t ≤ 15) :
    CBITS2 (ofBytes ts) = ts.sum := by
  match ts, hlen with
  | [t0, t1, t2, t3, t4, t5, t6, t7], _ =>
    have h0 := h t0 (by simp)
    have h1 := h t1 (by simp)
    have h2 := h t2 (by simp)
    have h3 := h t3 (by simp)
    have h4 := h t4 (by simp)
    have h5 := h t5 (by simp)
    have h6 := h t6 (by simp)
    have h7 := h t7 (by simp)
    unfold CBITS2
    have hB4 : B4 = 72340172838076673 := by decide
    have hS1 : S1 = 56 := by decide
    rw [hB4, hS1, Nat.shiftRight_eq_div_pow]
    have hp64 : (2 : Nat) ^ 64 = 18446744073709551616 := by norm_num
    have hp56 : (2 : Nat) ^ 56 = 72057594037927936 := by norm_num
    rw [hp64, hp56]
    have hX : ofBytes [t0, t1, t2, t3, t4, t5, t6, t7]
        = t0 + 256 * t1 + 65536 * t2 + 16777216 * t3 + 4294967296 * t4
          + 1099511627776 * t5 + 281474976710656 * t6 + 72057594037927936 * t7 := by
      simp only [ofBytes]
      ring
    have key : (t0 + 256 * t1 + 65536 * t2 + 16777216 * t3 + 4294967296 * t4
          + 1099511627776 * t5 + 281474976710656 * t6 + 72057594037927936 * t7)
          * 72340172838076673
        = (t0
          + 256 * (t0 + t1)
          + 65536 * (t0 + t1 + t2)
          + 16777216 * (t0 + t1 + t2 + t3)
          + 4294967296 * (t0 + t1 + t2 + t3 + t4)
          + 1099511627776 * (t0 + t1 + t2 + t3 + t4 + t5)
          + 281474976710656 * (t0 + t1 + t2 + t3 + t4 + t5 + t6)
          + 72057594037927936 * (t0 + t1 + t2 + t3 + t4 + t5 + t6 + t7))
          + 18446744073709551616 *
            ((t1 + t2 + t3 + t4 + t5 + t6 + t7)
              + 256 * (t2 + t3 + t4 + t5 + t6 + t7)
              + 65536 * (t3 + t4 + t5 + t6 + t7)
              + 16777216 * (t4 + t5 + t6 + t7)
              + 4294967296 * (t5 + t6 + t7)
              + 1099511627776 * (t6 + t7)
              + 281474976710656 * t7) := by
      ring
    rw [hX, key, Nat.add_mul_mod_self_left]
    have hAlt : t0
          + 256 * (t0 + t1)
          + 65536 * (t0 + t1 + t2)
          + 16777216 * (t0 + t1 + t2 + t3)
          + 4294967296 * (t0 + t1 + t2 + t3 + t4)
          + 1099511627776 * (t0 + t1 + t2 + t3 + t4 + t5)
          + 281474976710656 * (t0 + t1 + t2 + t3 + t4 + t5 + t6)
          + 72057594037927936 * (t0 + t1 + t2 + t3 + t4 + t5 + t6 + t7)
        < 18446744073709551616 := by
      omega
    rw [Nat.mod_eq_of_lt hAlt]
    have hA2 : t0
          + 256 * (t0 + t1)
          + 65536 * (t0 + t1 + t2)
          + 16777216 * (t0 + t1 + t2 + t3)
          + 4294967296 * (t0 + t1 + t2 + t3 + t4)
          + 1099511627776 * (t0 + t1 + t2 + t3 + t4 + t5)
          + 281474976710656 * (t0 + t1 + t2 + t3 + t4 + t5 + t6)
          + 72057594037927936 * (t0 + t1 + t2 + t3 + t4 + t5 + t6 + t7)
        = (t0
          + 256 * (t0 + t1)
          + 65536 * (t0 + t1 + t2)
          + 16777216 * (t0 + t1 + t2 + t3)
          + 4294967296 * (t0 + t1 + t2 + t3 + t4)
          + 1099511627776 * (t0 + t1 + t2 + t3 + t4 + t5)
          + 281474976710656 * (t0 + t1 + t2 + t3 + t4 + t5 + t6))
          + 72057594037927936 * (t0 + t1 + t2 + t3 + t4 + t5 + t6 + t7) := by
      ring
    rw [hA2, Nat.add_mul_div_left _ _ (by norm_num : (0 : Nat) < 72057594037927936)]
    have hL : (t0
          + 256 * (t0 + t1)
          + 65536 * (t0 + t1 + t2)
          + 16777216 * (t0 + t1 + t2 + t3)
          + 4294967296 * (t0 + t1 + t2 + t3 + t4)
          + 1099511627776 * (t0 + t1 + t2 + t3 + t4 + t5)
          + 281474976710656 * (t0 + t1 + t2 + t3 + t4 + t5 + t6))
          / 72057594037927936 = 0 := by
      apply Nat.div_eq_of_lt
      omega
    rw [hL]
    simp only [List.sum_cons, List.sum_nil]
    ring

set_option maxRecDepth 10000 in
theorem fb_nibbles : ∀ c < 256, fb c % 16 ≤ 6 ∧ fb c / 16 ≤ 6 := by decide

theorem fc_le : ∀ b, fc b ≤ 15 := by
  intro b
  unfold fc
  exact Nat.and_le_right

set_option maxRecDepth 100000 in
theorem pc8_eq : ∀ b < 256, fc (fb (fa b)) = popcount b := by decide

/-- The sideways-addition kernel computes the population count of every
64-bit chunk value, sign extension of the arithmetic shifts notwithstanding. -/
theorem sideways_eq_popcount (v : Nat) (hv : v < 2 ^ 64) :
    sidewaysaddition_kernel v = popcount v := by
  set bs : List Nat := (List.range 8).map fun j => v / 256 ^ j % 256 with hbs
  have hlen : bs.length = 8 := by simp [hbs]
  have hlt : ∀ b ∈ bs, b < 256 := by
    intro b hb
    rw [hbs] at hb
    obtain ⟨j, _, rfl⟩ := List.mem_map.mp hb
    exact Nat.mod_lt _ (by norm_num)
  have hofB : ofBytes bs = v := by
    rw [hbs, ofBytes_digits]
    apply Nat.mod_eq_of_lt
    calc v < 2 ^ 64 := hv
    _ = 256 ^ 8 := by norm_num
  have hlt2 : ∀ b ∈ bs.map fa, b < 256 := by
    intro b hb
    obtain ⟨c, hc, rfl⟩ := List.mem_map.mp hb
    have : fa c ≤ c := Nat.sub_le _ _
    have := hlt c hc
    omega
  have hnib : ∀ b ∈ (bs.map fa).map fb, b % 16 ≤ 6 ∧ b / 16 ≤ 6 := by
    intro b hb
    obtain ⟨c, hc, rfl⟩ := List.mem_map.mp hb
    exact fb_nibbles c (hlt2 c hc)
  have hfc15 : ∀ t ∈ ((bs.map fa).map fb).map fc, t ≤ 15 := by
    intro t ht
    obtain ⟨c, _, rfl⟩ := List.mem_map.mp ht
    exact fc_le c
  unfold sidewaysaddition_kernel
  rw [← hofB, CBITSa_bytes bs hlen hlt,
    CBITSb_bytes _ (by rw [List.length_map, hlen]) hlt2,
    CBITSc_bytes _ (by rw [List.length_map, List.length_map, hlen]) hnib,
    CBITS2_sum _ (by rw [List.length_map, List.length_map, List.length_map, hlen]) hfc15]
  rw [List.map_map, List.map_map]
  have hmapeq : bs.map ((fc ∘ fb) ∘ fa) = bs.map popcount :=
    List.map_congr_left fun b hb => pc8_eq b (hlt b hb)
  rw [hmapeq, ← popcount_ofBytes bs hlt, hofB]

theorem land_pair (a b r s : Nat) (hr : r < 2) (hs : s < 2) :
    (r + 2 * a) &&& (s + 2 * b) = (r &&& s) + 2 * (a &&& b) := by
  have h := land_split 1 r a s b hr hs
  simpa using h

theorem land_self_eq (a : Nat) : a &&& a = a := by
  apply Nat.eq_of_testBit_eq
  intro j
  rw [Nat.testBit_and, Bool.and_self]

theorem odd_and_pred (m : Nat) : (2 * m + 1) &&& (2 * m) = 2 * m := by
  have h := land_pair m m 1 0 (by omega) (by omega)
  have h1 : (2 * m + 1) &&& (2 * m) = (1 + 2 * m) &&& (0 + 2 * m) := by
    rw [Nat.add_comm 1, Nat.zero_add]
  rw [h1, h, land_self_eq]
  simp

theorem even_and_pred (w : Nat) (hw : w ≠ 0) :
    (2 * w) &&& (2 * w - 1) = 2 * (w &&& (w - 1)) := by
  have hw1 : 2 * w - 1 = 1 + 2 * (w - 1) := by omega
  have h0 : 2 * w = 0 + 2 * w := by omega
  rw [hw1, h0, land_pair w (w - 1) 0 1 (by omega) (by omega)]
  simp

theorem popcount_pos (v : Nat) (hv : v ≠ 0) : 0 < popcount v := by
  induction v using Nat.strong_induction_on with
  | _ v ih =>
    rw [popcount_eq]
    rcases Nat.even_or_odd v with he | ho
    · have hv2 : v / 2 ≠ 0 := by
        obtain ⟨w, rfl⟩ := he
        omega
      have := ih (v / 2) (Nat.div_lt_self (by omega) (by omega)) hv2
      omega
    · have : v % 2 = 1 := Nat.odd_iff.mp ho
      omega

theorem popcount_and_pred (v : Nat) (hv : v ≠ 0) :
    popcount (v &&& (v - 1)) + 1 = popcount v := by
  induction v using Nat.strong_induction_on with
  | _ v ih =>
    rcases Nat.even_or_odd v with he | ho
    · obtain ⟨w, rfl⟩ := he
      have hww : w + w = 2 * w := by omega
      have hw : w ≠ 0 := by omega
      rw [hww, even_and_pred w hw]
      have h2 : popcount (2 * (w &&& (w - 1))) = popcount (w &&& (w - 1)) := by
        have := popcount_two_mul_add (w &&& (w - 1)) 0 (by omega)
        simpa using this
      have h3 : popcount (2 * w) = popcount w := by
        have := popcount_two_mul_add w 0 (by omega)
        simpa using this
      rw [h2, h3, ih w (by omega) hw]
    · obtain ⟨m, rfl⟩ := ho
      have h1 : 2 * m + 1 - 1 = 2 * m := by omega
      rw [h1, odd_and_pred m]
      have hm : popcount (2 * m) = popcount m := by
        have := popcount_two_mul_add m 0 (by omega)
        simpa using this
      rw [hm, popcount_two_mul_add m 1 (by omega)]

theorem and_pred_lt (v : Nat) (hv : v ≠ 0) : v &&& (v - 1) < v := by
  have h := Nat.and_le_right (n := v) (m := v - 1)
  omega

theorem popcount_le_self (v : Nat) : popcount v ≤ v := by
  induction v using Nat.strong_induction_on with
  | _ v ih =>
    rcases Nat.eq_zero_or_pos v with h0 | h0
    · subst h0; simp
    · rw [popcount_eq]
      have := ih (v / 2) (Nat.div_lt_self h0 (by omega))
      omega

theorem kernighanLoop_correct : ∀ (fuel v t : Nat), popcount v ≤ fuel →
    kernighanLoop fuel v t = some (t + popcount v) := by
  intro fuel
  induction fuel with
  | zero =>
    intro v t h
    have hv : v = 0 := by
      by_contra hne
      have := popcount_pos v hne
      omega
    subst hv
    simp [kernighanLoop]
  | succ fuel ih =>
    intro v t h
    by_cases hv : v = 0
    · subst hv
      simp [kernighanLoop]
    · rw [kernighanLoop, if_neg hv]
      have hstep := popcount_and_pred v hv
      rw [ih (v &&& (v - 1)) (t + 1) (by omega)]
      congr 1
      omega

/-- Brian Kernighan's loop computes the population count. -/
theorem kernighan_kernel_eq (v : Nat) : kernighan_kernel v = popcount v := by
  unfold kernighan_kernel
  rw [kernighanLoop_correct v v 0 (popcount_le_self v)]
  simp

/-- Clearing `v &&& (v - 1)` removes exactly the lowest set bit. -/
theorem and_pred_clears_lowest (v : Nat) (hv : v ≠ 0) :
    ∃ k, Nat.testBit v k = true ∧ (∀ j < k, Nat.testBit v j = false) ∧
      v &&& (v - 1) = v - 2 ^ k := by
  induction v using Nat.strong_induction_on with
  | _ v ih =>
    rcases Nat.even_or_odd v with he | ho
    · obtain ⟨w, rfl⟩ := he
      have hww : w + w = 2 * w := by omega
      have hw : w ≠ 0 := by omega
      rw [hww] at ih ⊢
      obtain ⟨k, hk1, hk2, hk3⟩ := ih w (by omega) hw
      refine ⟨k + 1, ?_, ?_, ?_⟩
      · rw [Nat.testBit_add_one]
        have h2 : 2 * w / 2 = w := by omega
        rw [h2]
        exact hk1
      · intro j hj
        match j with
        | 0 =>
          rw [Nat.testBit_zero]
          simp
        | j + 1 =>
          rw [Nat.testBit_add_one]
          have h2 : 2 * w / 2 = w := by omega
          rw [h2]
          exact hk2 j (by omega)
      · rw [even_and_pred w hw, hk3, Nat.pow_succ]
        have hk4 : 2 ^ k ≤ w := Nat.testBit_implies_ge hk1
        omega
    · obtain ⟨m, rfl⟩ := ho
      refine ⟨0, ?_, ?_, ?_⟩
      · rw [Nat.testBit_zero]
        simp
        omega
      · intro j hj
        omega
      · have h1 : 2 * m + 1 - 1 = 2 * m := by omega
        rw [h1, odd_and_pred m]
        simp

theorem list_map_range_sum (g : Nat → Nat) (n : Nat) :
    ((List.range n).map g).sum = ∑ i ∈ Finset.range n, g i := by
  induction n with
  | zero => simp
  | succ n ih =>
    rw [List.range_succ, List.map_append, List.sum_append, ih, Finset.sum_range_succ]
    simp

theorem chunk_bytes_lt (mem : Nat → Nat) (off : Nat) (h : ∀ j < 8, mem (off + j) < 256) :
    ∀ b ∈ chunk_bytes mem off, b < 256 := by
  intro b hb
  obtain ⟨j, hj, rfl⟩ := List.mem_map.mp hb
  exact h j (List.mem_range.mp hj)

theorem chunk_at_lt (mem : Nat → Nat) (off : Nat) (h : ∀ j < 8, mem (off + j) < 256) :
    chunk_at mem off < 2 ^ 64 :=
  ofBytes_length8_lt _ (by simp [chunk_bytes]) (chunk_bytes_lt mem off h)

theorem chunk_at_popcount (mem : Nat → Nat) (off : Nat) (h : ∀ j < 8, mem (off + j) < 256) :
    popcount (chunk_at mem off) = ∑ j ∈ Finset.range 8, popcount (mem (off + j)) := by
  unfold chunk_at
  rw [popcount_ofBytes _ (chunk_bytes_lt mem off h)]
  unfold chunk_bytes
  rw [List.map_map, list_map_range_sum]
  rfl

theorem sum_blocks (f : Nat → Nat) : ∀ m : Nat, ∑ t ∈ Finset.range (8 * m), f t
    = ∑ i ∈ Finset.range m, ∑ j ∈ Finset.range 8, f (i * 8 + j) := by
  intro m
  induction m with
  | zero => simp
  | succ m ih =>
    have h8 : 8 * (m + 1) = 8 * m + 8 := by ring
    rw [h8, Finset.sum_range_add, ih]
    conv_rhs => rw [Finset.sum_range_succ]
    congr 1
    apply Finset.sum_congr rfl
    intro j _
    congr 1
    ring

/-- The chunked harness agrees with the naive count for every kernel that
computes the population count of its 64-bit chunk. -/
theorem kernel_eq_naive (func : Nat → Nat) (hf : ∀ v < 2 ^ 64, func v = popcount v)
    (mem : Nat → Nat) (n : Nat) (hm : ∀ i < n, mem i < 256) :
    count_bits_kernel func mem n = count_bits_naive mem n := by
  have hcs : chunk_size = 8 := rfl
  have hqn : n / 8 * 8 ≤ n := Nat.div_mul_le_self n 8
  have hinchunk : ∀ i < n / 8, ∀ j < 8, i * 8 + j < n := by
    intro i hi j hj
    have h1 : i * 8 + 8 ≤ n / 8 * 8 := by
      have : i + 1 ≤ n / 8 := hi
      calc i * 8 + 8 = (i + 1) * 8 := by ring
      _ ≤ n / 8 * 8 := Nat.mul_le_mul_right 8 this
    omega
  simp only [count_bits_kernel, chunk_size]
  rw [foldl_range_add (fun i => func (chunk_at mem (i * 8))) _ 0, Nat.zero_add]
  have hchunks : ∑ i ∈ Finset.range (n / 8), func (chunk_at mem (i * 8))
      = ∑ t ∈ Finset.range (8 * (n / 8)), popcount (mem t) := by
    rw [sum_blocks]
    apply Finset.sum_congr rfl
    intro i hi
    have hin : ∀ j < 8, mem (i * 8 + j) < 256 := by
      intro j hj
      exact hm _ (hinchunk i (Finset.mem_range.mp hi) j hj)
    rw [hf _ (chunk_at_lt mem (i * 8) hin), chunk_at_popcount mem (i * 8) hin]
  rw [hchunks]
  have htail : count_bits_naive (shiftMem mem (n / 8 * 8)) (n - n / 8 * 8)
      = ∑ i ∈ Finset.range (n - n / 8 * 8), popcount (mem (n / 8 * 8 + i)) := by
    rw [count_bits_naive_eq_sum]
    apply Finset.sum_congr rfl
    intro i hi
    have hib : n / 8 * 8 + i < n := by
      have := Finset.mem_range.mp hi
      omega
    exact byteBits_eq_popcount _ (hm _ hib)
  rw [htail, count_bits_naive_eq_sum]
  have hsplit : n = 8 * (n / 8) + (n - n / 8 * 8) := by omega
  calc ∑ t ∈ Finset.range (8 * (n / 8)), popcount (mem t)
        + ∑ i ∈ Finset.range (n - n / 8 * 8), popcount (mem (n / 8 * 8 + i))
      = ∑ t ∈ Finset.range n, popcount (mem t) := by
        conv_rhs => rw [hsplit]
        rw [Finset.sum_range_add]
        congr 1
        apply Finset.sum_congr rfl
        intro i _
        congr 1
        ring_nf
  _ = ∑ t ∈ Finset.range n, byteBits (mem t) := by
        apply Finset.sum_congr rfl
        intro t ht
        exact (byteBits_eq_popcount _ (hm _ (Finset.mem_range.mp ht))).symm

/-- Generalisation of `sum_blocks` to an arbitrary block width. -/
theorem sum_blocksW (f : Nat → Nat) (w : Nat) : ∀ m : Nat,
    ∑ t ∈ Finset.range (m * w), f t
      = ∑ i ∈ Finset.range m, ∑ j ∈ Finset.range w, f (i * w + j) := by
  intro m
  induction m with
  | zero => simp
  | succ m ih =>
    have hw : (m + 1) * w = m * w + w := by ring
    rw [hw, Finset.sum_range_add, ih]
    conv_rhs => rw [Finset.sum_range_succ]

/-- The first `q` chunks through a popcount kernel plus the naive count of
the remaining `n - 8q` bytes give the naive count of the whole buffer. -/
theorem chunks_prefix_tail (mem : Nat → Nat) (n q : Nat)
    (hm : ∀ i < n, mem i < 256) (hq : q * 8 ≤ n) :
    (∑ t ∈ Finset.range q, popcount (chunk_at mem (t * 8)))
      + count_bits_naive (shiftMem mem (q * 8)) (n - q * 8)
    = count_bits_naive mem n := by
  have hqq : q * 8 = 8 * q := by ring
  rw [hqq]
  have hchunks : ∑ t ∈ Finset.range q, popcount (chunk_at mem (t * 8))
      = ∑ u ∈ Finset.range (8 * q), popcount (mem u) := by
    have h8q : (8 : Nat) * q = q * 8 := by ring
    rw [h8q, sum_blocksW]
    apply Finset.sum_congr rfl
    intro t ht
    have htq := Finset.mem_range.mp ht
    have hin : ∀ j < 8, mem (t * 8 + j) < 256 := by
      intro j hj
      apply hm
      have : t * 8 + 8 ≤ q * 8 := by
        calc t * 8 + 8 = (t + 1) * 8 := by ring
        _ ≤ q * 8 := Nat.mul_le_mul_right 8 htq
      omega
    exact chunk_at_popcount mem (t * 8) hin
  have htail : count_bits_naive (shiftMem mem (8 * q)) (n - 8 * q)
      = ∑ i ∈ Finset.range (n - 8 * q), popcount (mem (8 * q + i)) := by
    rw [count_bits_naive_eq_sum]
    apply Finset.sum_congr rfl
    intro i hi
    have := Finset.mem_range.mp hi
    exact byteBits_eq_popcount _ (hm _ (by omega))
  rw [hchunks, htail, count_bits_naive_eq_sum]
  have hbyte : ∀ t ∈ Finset.range n, byteBits (mem t) = popcount (mem t) :=
    fun t ht => byteBits_eq_popcount _ (hm _ (Finset.mem_range.mp ht))
  rw [Finset.sum_congr rfl hbyte]
  have hsplit : n = 8 * q + (n - 8 * q) := by omega
  conv_rhs => rw [hsplit]
  rw [Finset.sum_range_add]

theorem static_chunk_start_zero (T m : Nat) : static_chunk_start 0 T m = 0 := by
  simp [static_chunk_start]

theorem static_chunk_start_succ (t T m : Nat) :
    static_chunk_start (t + 1) T m
      = static_chunk_start t T m + static_chunk_size t T m := by
  unfold static_chunk_start static_chunk_size
  by_cases h : t < m % T
  · rw [if_pos h, Nat.min_eq_left (by omega), Nat.min_eq_left (by omega)]
    ring_nf
  · rw [if_neg h, Nat.min_eq_right (by omega), Nat.min_eq_right (by omega)]
    ring_nf

theorem static_chunk_start_top (T m : Nat) (hT : 1 ≤ T) :
    static_chunk_start T T m = m := by
  unfold static_chunk_start
  have hmod := Nat.mod_lt m (y := T) (by omega)
  rw [Nat.min_eq_right (by omega)]
  have := Nat.div_add_mod m T
  omega

theorem static_chunk_start_mono (T m : Nat) : ∀ a b, a ≤ b →
    static_chunk_start a T m ≤ static_chunk_start b T m := by
  intro a b hab
  induction b with
  | zero =>
    have : a = 0 := by omega
    subst this
    exact le_rfl
  | succ b ih =>
    rcases Nat.lt_or_ge a (b + 1) with h | h
    · have := ih (by omega)
      rw [static_chunk_start_succ]
      omega
    · have : a = b + 1 := by omega
      subst this
      exact le_rfl

theorem slices_upto (g : Nat → Nat) (T m : Nat) : ∀ T' : Nat,
    ∑ t ∈ Finset.range T',
        (∑ j ∈ Finset.range (static_chunk_size t T m), g (static_chunk_start t T m + j))
      = ∑ i ∈ Finset.range (static_chunk_start T' T m), g i := by
  intro T'
  induction T' with
  | zero => rw [static_chunk_start_zero]; simp
  | succ T' ih =>
    rw [Finset.sum_range_succ, ih, static_chunk_start_succ, Finset.sum_range_add]

/-- The static-schedule slices of a full team partition the iteration range:
summing a function over every thread's slice sums it over all iterations. -/
theorem slices_sum (g : Nat → Nat) (T m : Nat) (hT : 1 ≤ T) :
    ∑ t ∈ Finset.range T,
        (∑ j ∈ Finset.range (static_chunk_size t T m), g (static_chunk_start t T m + j))
      = ∑ i ∈ Finset.range m, g i := by
  rw [slices_upto, static_chunk_start_top T m hT]

theorem slice_in_range (t T m : Nat) (ht : t < T) (j : Nat)
    (hj : j < static_chunk_size t T m) (hT : 1 ≤ T) :
    static_chunk_start t T m + j < m := by
  have h1 : static_chunk_start t T m + static_chunk_size t T m
      = static_chunk_start (t + 1) T m := (static_chunk_start_succ t T m).symm
  have h2 : static_chunk_start (t + 1) T m ≤ static_chunk_start T T m :=
    static_chunk_start_mono T m (t + 1) T ht
  rw [static_chunk_start_top T m hT] at h2
  omega

set_option maxRecDepth 40000 in
theorem lookup_table_eq : ∀ i < 256, lookup_table i = popcount i := by
  decide

/-- The table kernel computes the population count of every chunk value. -/
theorem table_kernel_eq (v : Nat) (hv : v < 2 ^ 64) : table_kernel v = popcount v := by
  unfold table_kernel
  rw [foldl_range_add (fun byte => lookup_table (v / 256 ^ byte % 256)) 8 0, Nat.zero_add]
  have hstep : ∀ byte ∈ Finset.range 8, lookup_table (v / 256 ^ byte % 256)
      = popcount (v / 256 ^ byte % 256) := by
    intro byte _
    exact lookup_table_eq _ (Nat.mod_lt _ (by norm_num))
  rw [Finset.sum_congr rfl hstep]
  have hpc : popcount v = ∑ j ∈ Finset.range 8, popcount (v / 256 ^ j % 256) := by
    have hd : ofBytes ((List.range 8).map fun j => v / 256 ^ j % 256) = v := by
      rw [ofBytes_digits]
      exact Nat.mod_eq_of_lt (by calc v < 2 ^ 64 := hv
                                   _ = 256 ^ 8 := by norm_num)
    have hbd : ∀ b ∈ (List.range 8).map fun j => v / 256 ^ j % 256, b < 256 := by
      intro b hb
      obtain ⟨j, _, rfl⟩ := List.mem_map.mp hb
      exact Nat.mod_lt _ (by norm_num)
    conv_lhs => rw [← hd]
    rw [popcount_ofBytes _ hbd, List.map_map, list_map_range_sum]
    rfl
  rw [hpc]

/-- On the LP64 target both chunk types have 8 bytes, so the double-chunk
harness is the chunk harness. -/
theorem kernel_double_eq_kernel (func : Nat → Nat) (mem : Nat → Nat) (n : Nat) :
    count_bits_kernel_double func mem n = count_bits_kernel func mem n := rfl

theorem asmLoop_sum (mem : Nat → Nat) : ∀ (k off t : Nat),
    asmLoop mem off k t = t + ∑ i ∈ Finset.range k, popcount (chunk_at mem (off + i * 8)) := by
  intro k
  induction k with
  | zero => intro off t; simp [asmLoop]
  | succ k ih =>
    intro off t
    show asmLoop mem (off + chunk_size) k (t + popcount (chunk_at mem off)) = _
    rw [ih, Finset.sum_range_succ']
    have hcs : chunk_size = 8 := rfl
    rw [hcs]
    have h1 : ∀ i, off + 8 + i * 8 = off + (i + 1) * 8 := by intro i; ring
    simp only [h1, Nat.zero_mul, Nat.add_zero]
    omega

theorem asm_chunked_sum (mem : Nat → Nat) (bufsize : Nat) :
    count_bits_asm_chunked mem bufsize
      = ∑ i ∈ Finset.range (bufsize / 8), popcount (chunk_at mem (i * 8)) := by
  unfold count_bits_asm_chunked
  have hcs : chunk_size = 8 := rfl
  rw [hcs]
  by_cases h : bufsize / 8 = 0
  · rw [if_pos h, h]
    simp
  · rw [if_neg h, asmLoop_sum]
    simp only [Nat.zero_add]

theorem chunk_at_shift (mem : Nat → Nat) (k off : Nat) :
    chunk_at (shiftMem mem k) off = chunk_at mem (k + off) := by
  unfold chunk_at chunk_bytes shiftMem
  congr 1

/-- The ASM harness agrees with the naive count for any positive core
count. -/
theorem asm_eq_naive (mem : Nat → Nat) (n : Nat) (num_cores : Nat)
    (_hc : 1 ≤ num_cores) (hm : ∀ i < n, mem i < 256) :
    count_bits_asm mem n num_cores = count_bits_naive mem n := by
  simp only [count_bits_asm, chunk_size]
  set cpc := n / 8 / num_cores with hcpc
  rw [foldl_range_add
    (fun core => count_bits_asm_chunked (shiftMem mem (core * (cpc * 8))) (cpc * 8)) _ 0,
    Nat.zero_add]
  have hcore : ∀ core ∈ Finset.range num_cores,
      count_bits_asm_chunked (shiftMem mem (core * (cpc * 8))) (cpc * 8)
        = ∑ i ∈ Finset.range cpc, popcount (chunk_at mem ((core * cpc + i) * 8)) := by
    intro core _
    rw [asm_chunked_sum]
    have hdiv : cpc * 8 / 8 = cpc := by omega
    rw [hdiv]
    apply Finset.sum_congr rfl
    intro i _
    rw [chunk_at_shift]
    have harg : core * (cpc * 8) + i * 8 = (core * cpc + i) * 8 := by ring
    rw [harg]
  rw [Finset.sum_congr rfl hcore]
  have hblocks : ∑ core ∈ Finset.range num_cores,
      (∑ i ∈ Finset.range cpc, popcount (chunk_at mem ((core * cpc + i) * 8)))
        = ∑ t ∈ Finset.range (num_cores * cpc), popcount (chunk_at mem (t * 8)) := by
    rw [sum_blocksW (fun t => popcount (chunk_at mem (t * 8))) cpc num_cores]
  rw [hblocks]
  have hq : num_cores * cpc * 8 ≤ n := by
    have h1 : num_cores * cpc ≤ n / 8 := by
      rw [hcpc, Nat.mul_comm]
      exact Nat.div_mul_le_self (n / 8) num_cores
    have h2 : n / 8 * 8 ≤ n := Nat.div_mul_le_self n 8
    calc num_cores * cpc * 8 ≤ n / 8 * 8 := Nat.mul_le_mul_right 8 h1
    _ ≤ n := h2
  have hmain := chunks_prefix_tail mem n (num_cores * cpc) hm hq
  have harr : num_cores * (cpc * 8) = num_cores * cpc * 8 := by ring
  rw [harr]
  exact hmain

theorem threadSum_eq (f : Nat → Nat) (mem : Nat → Nat) (start size : Nat) :
    threadSum f mem start size
      = ∑ j ∈ Finset.range size, f (chunk_at mem ((start + j) * 8)) := by
  unfold threadSum
  simp only [chunk_size]
  rw [foldl_range_add (fun j => f (chunk_at mem ((start + j) * 8))) _ 0, Nat.zero_add]

theorem threadSum_pc (f : Nat → Nat) (hf : ∀ v < 2 ^ 64, f v = popcount v)
    (mem : Nat → Nat) (n : Nat) (hm : ∀ i < n, mem i < 256)
    (start size : Nat) (hrange : ∀ j < size, start + j < n / 8) :
    threadSum f mem start size
      = ∑ j ∈ Finset.range size, popcount (chunk_at mem ((start + j) * 8)) := by
  rw [threadSum_eq]
  apply Finset.sum_congr rfl
  intro j hj
  apply hf
  apply chunk_at_lt
  intro jj hjj
  apply hm
  have h1 : start + j < n / 8 := hrange j (Finset.mem_range.mp hj)
  have h2 : (start + j) * 8 + 8 ≤ n / 8 * 8 := by
    calc (start + j) * 8 + 8 = (start + j + 1) * 8 := by ring
    _ ≤ n / 8 * 8 := Nat.mul_le_mul_right 8 h1
  have h3 : n / 8 * 8 ≤ n := Nat.div_mul_le_self n 8
  omega

/-- The dual-kernel harness agrees with the naive count whenever both
kernels compute chunk population counts, for every positive team size. -/
theorem kernel2_eq_naive (f1 f2 : Nat → Nat) (n1 n2 T : Nat)
    (hf1 : ∀ v < 2 ^ 64, f1 v = popcount v) (hf2 : ∀ v < 2 ^ 64, f2 v = popcount v)
    (hT : 1 ≤ T) (mem : Nat → Nat) (n : Nat) (hm : ∀ i < n, mem i < 256) :
    count_bits_kernel2 f1 f2 n1 n2 T mem n = count_bits_naive mem n := by
  simp only [count_bits_kernel2, chunk_size]
  rw [foldl_range_add
    (fun t => if t < T / (n1 + n2) then
        threadSum f1 mem (static_chunk_start t T (n / 8)) (static_chunk_size t T (n / 8))
      else
        threadSum f2 mem (static_chunk_start t T (n / 8)) (static_chunk_size t T (n / 8))) _ 0,
    Nat.zero_add]
  have hcong : ∀ t ∈ Finset.range T,
      (if t < T / (n1 + n2) then
          threadSum f1 mem (static_chunk_start t T (n / 8)) (static_chunk_size t T (n / 8))
        else
          threadSum f2 mem (static_chunk_start t T (n / 8)) (static_chunk_size t T (n / 8)))
        = ∑ j ∈ Finset.range (static_chunk_size t T (n / 8)),
            popcount (chunk_at mem ((static_chunk_start t T (n / 8) + j) * 8)) := by
    intro t ht
    have hrange : ∀ j < static_chunk_size t T (n / 8),
        static_chunk_start t T (n / 8) + j < n / 8 := by
      intro j hj
      exact slice_in_range t T (n / 8) (Finset.mem_range.mp ht) j hj hT
    by_cases hcase : t < T / (n1 + n2)
    · rw [if_pos hcase]
      exact threadSum_pc f1 hf1 mem n hm _ _ hrange
    · rw [if_neg hcase]
      exact threadSum_pc f2 hf2 mem n hm _ _ hrange
  rw [Finset.sum_congr rfl hcong,
    slices_sum (fun i => popcount (chunk_at mem (i * 8))) T (n / 8) hT]
  exact chunks_prefix_tail mem n (n / 8) hm (Nat.div_mul_le_self n 8)

theorem partialSums_sum (func : Nat → Nat) (mem : Nat → Nat) : ∀ (sizes : List Nat) (off : Nat),
    (partialSums func mem off sizes).sum
      = ∑ i ∈ Finset.range sizes.sum, func (chunk_at mem ((off + i) * 8)) := by
  intro sizes
  induction sizes with
  | nil => intro off; simp [partialSums]
  | cons s rest ih =>
    intro off
    show (threadSum func mem off s :: partialSums func mem (off + s) rest).sum = _
    rw [List.sum_cons, threadSum_eq, ih (off + s)]
    show _ = ∑ i ∈ Finset.range (s + rest.sum), func (chunk_at mem ((off + i) * 8))
    have h2 : ∑ x ∈ Finset.range rest.sum, func (chunk_at mem ((off + s + x) * 8))
        = ∑ x ∈ Finset.range rest.sum, func (chunk_at mem ((off + (s + x)) * 8)) := by
      apply Finset.sum_congr rfl
      intro x _
      have harr : off + s + x = off + (s + x) := by ring
      rw [harr]
    rw [Finset.sum_range_add, ← h2]

/-- Any contiguous partition of the chunk range gives the same total as the
sequential harness: the parallel total is independent of the thread count
and of the per-thread range sizes. -/
theorem kernel_threads_eq (func : Nat → Nat) (mem : Nat → Nat) (n : Nat)
    (sizes : List Nat) (hsum : sizes.sum = n / 8) :
    count_bits_kernel_threads func mem n sizes = count_bits_kernel func mem n := by
  simp only [count_bits_kernel_threads, count_bits_kernel, chunk_size]
  rw [partialSums_sum, hsum,
    foldl_range_add (fun i => func (chunk_at mem (i * 8))) _ 0, Nat.zero_add]
  have h2 : ∑ i ∈ Finset.range (n / 8), func (chunk_at mem ((0 + i) * 8))
      = ∑ i ∈ Finset.range (n / 8), func (chunk_at mem (i * 8)) := by
    apply Finset.sum_congr rfl
    intro i _
    rw [Nat.zero_add]
  rw [h2]

theorem replayWrites_of_reads : ∀ (evs : List MemEvent),
    (∀ e ∈ evs, ∃ a, e = MemEvent.read a) → ∀ mem, replayWrites evs mem = mem := by
  intro evs
  induction evs with
  | nil => intro _ mem; rfl
  | cons e rest ih =>
    intro h mem
    obtain ⟨a, rfl⟩ := h e (List.mem_cons_self e rest)
    show replayWrites rest mem = mem
    exact ih (fun x hx => h x (List.mem_cons_of_mem _ hx)) mem

theorem naive_accesses_reads (off n : Nat) :
    ∀ e ∈ naive_accesses off n, ∃ a, off ≤ a ∧ a < off + n ∧ e = MemEvent.read a := by
  intro e he
  unfold naive_accesses at he
  obtain ⟨i, hi, he2⟩ := List.mem_flatMap.mp he
  have hie := List.mem_replicate.mp he2
  exact ⟨off + i, by omega, by have := List.mem_range.mp hi; omega, hie.2⟩

theorem chunk_accesses_reads (off : Nat) :
    ∀ e ∈ chunk_accesses off, ∃ a, off ≤ a ∧ a < off + 8 ∧ e = MemEvent.read a := by
  intro e he
  unfold chunk_accesses at he
  obtain ⟨j, hj, rfl⟩ := List.mem_map.mp he
  exact ⟨off + j, by omega, by have := List.mem_range.mp hj; omega, rfl⟩

theorem kernel_accesses_reads (n : Nat) :
    ∀ e ∈ kernel_accesses n, ∃ a, a < n ∧ e = MemEvent.read a := by
  intro e he
  unfold kernel_accesses at he
  rcases List.mem_append.mp he with hc | ht
  · obtain ⟨i, hi, he2⟩ := List.mem_flatMap.mp hc
    obtain ⟨a, ha1, ha2, rfl⟩ := chunk_accesses_reads _ e he2
    refine ⟨a, ?_, rfl⟩
    have hi2 : i < n / 8 := List.mem_range.mp hi
    have ha1b : i * 8 ≤ a := ha1
    have ha2b : a < i * 8 + 8 := ha2
    have h1 : i * 8 + 8 ≤ n / 8 * 8 := by
      calc i * 8 + 8 = (i + 1) * 8 := by ring
      _ ≤ n / 8 * 8 := Nat.mul_le_mul_right 8 hi2
    have h2 : n / 8 * 8 ≤ n := Nat.div_mul_le_self n 8
    omega
  · obtain ⟨a, ha1, ha2, rfl⟩ := naive_accesses_reads _ _ e ht
    refine ⟨a, ?_, rfl⟩
    have ha1b : n / 8 * 8 ≤ a := ha1
    have ha2b : a < n / 8 * 8 + (n - n / 8 * 8) := ha2
    have h2 : n / 8 * 8 ≤ n := Nat.div_mul_le_self n 8
    omega

theorem kernel2_accesses_reads (T n : Nat) (hT : 1 ≤ T) :
    ∀ e ∈ kernel2_accesses T n, ∃ a, a < n ∧ e = MemEvent.read a := by
  intro e he
  unfold kernel2_accesses at he
  rcases List.mem_append.mp he with hc | ht
  · obtain ⟨t, htm, he2⟩ := List.mem_flatMap.mp hc
    obtain ⟨j, hj, he3⟩ := List.mem_flatMap.mp he2
    obtain ⟨a, ha1, ha2, rfl⟩ := chunk_accesses_reads _ e he3
    refine ⟨a, ?_, rfl⟩
    have ha1b : (static_chunk_start t T (n / 8) + j) * 8 ≤ a := ha1
    have ha2b : a < (static_chunk_start t T (n / 8) + j) * 8 + 8 := ha2
    have hsl : static_chunk_start t T (n / 8) + j < n / 8 :=
      slice_in_range t T (n / chunk_size) (List.mem_range.mp htm) j
        (List.mem_range.mp hj) hT
    have h1 : (static_chunk_start t T (n / 8) + j) * 8 + 8 ≤ n / 8 * 8 := by
      calc (static_chunk_start t T (n / 8) + j) * 8 + 8
          = (static_chunk_start t T (n / 8) + j + 1) * 8 := by ring
      _ ≤ n / 8 * 8 := Nat.mul_le_mul_right 8 hsl
    have h2 : n / 8 * 8 ≤ n := Nat.div_mul_le_self n 8
    omega
  · obtain ⟨a, ha1, ha2, rfl⟩ := naive_accesses_reads _ _ e ht
    refine ⟨a, ?_, rfl⟩
    have ha1b : n / 8 * 8 ≤ a := ha1
    have ha2b : a < n / 8 * 8 + (n - n / 8 * 8) := ha2
    have h2 : n / 8 * 8 ≤ n := Nat.div_mul_le_self n 8
    omega

theorem asm_chunked_accesses_reads (off n : Nat) :
    ∀ e ∈ asm_chunked_accesses off n, ∃ a, off ≤ a ∧ a < off + n / 8 * 8 ∧ e = MemEvent.read a := by
  intro e he
  unfold asm_chunked_accesses at he
  by_cases h : n / chunk_size = 0
  · rw [if_pos h] at he
    simp at he
  · rw [if_neg h] at he
    obtain ⟨i, hi, he2⟩ := List.mem_flatMap.mp he
    obtain ⟨a, ha1, ha2, rfl⟩ := chunk_accesses_reads _ e he2
    have ha1b : off + i * 8 ≤ a := ha1
    have ha2b : a < off + i * 8 + 8 := ha2
    refine ⟨a, by omega, ?_, rfl⟩
    have hi2 : i < n / 8 := List.mem_range.mp hi
    have h1 : i * 8 + 8 ≤ n / 8 * 8 := by
      calc i * 8 + 8 = (i + 1) * 8 := by ring
      _ ≤ n / 8 * 8 := Nat.mul_le_mul_right 8 hi2
    omega

theorem asm_accesses_reads (n num_cores : Nat) :
    ∀ e ∈ asm_accesses n num_cores, ∃ a, a < n ∧ e = MemEvent.read a := by
  intro e he
  unfold asm_accesses at he
  have hcs : chunk_size = 8 := rfl
  rcases List.mem_append.mp he with hc | ht
  · obtain ⟨core, hcore, he2⟩ := List.mem_flatMap.mp hc
    obtain ⟨a, ha1, ha2, rfl⟩ := asm_chunked_accesses_reads _ _ e he2
    refine ⟨a, ?_, rfl⟩
    have hcore2 := List.mem_range.mp hcore
    set cpc := n / 8 / num_cores with hcpc
    have ha1b : core * (cpc * 8) ≤ a := ha1
    have ha2b : a < core * (cpc * 8) + cpc * 8 / 8 * 8 := ha2
    have hd : cpc * 8 / 8 = cpc := by omega
    rw [hd] at ha2b
    have h1 : core * (cpc * 8) + cpc * 8 ≤ num_cores * (cpc * 8) := by
      calc core * (cpc * 8) + cpc * 8 = (core + 1) * (cpc * 8) := by ring
      _ ≤ num_cores * (cpc * 8) := Nat.mul_le_mul_right (cpc * 8) hcore2
    have h2 : num_cores * (cpc * 8) ≤ n := by
      have h3 : num_cores * cpc ≤ n / 8 := by
        rw [hcpc, Nat.mul_comm]
        exact Nat.div_mul_le_self (n / 8) num_cores
      have h4 : n / 8 * 8 ≤ n := Nat.div_mul_le_self n 8
      calc num_cores * (cpc * 8) = num_cores * cpc * 8 := by ring
      _ ≤ n / 8 * 8 := Nat.mul_le_mul_right 8 h3
      _ ≤ n := h4
    omega
  · obtain ⟨a, ha1, ha2, rfl⟩ := naive_accesses_reads _ _ e ht
    refine ⟨a, ?_, rfl⟩
    have ha1b : num_cores * (n / 8 / num_cores * 8) ≤ a := ha1
    have ha2b : a < num_cores * (n / 8 / num_cores * 8)
        + (n - num_cores * (n / 8 / num_cores * 8)) := ha2
    omega

theorem count_bits_naive_agree (mem1 mem2 : Nat → Nat) (n : Nat)
    (h : ∀ i < n, mem1 i = mem2 i) :
    count_bits_naive mem1 n = count_bits_naive mem2 n := by
  rw [count_bits_naive_eq_sum, count_bits_naive_eq_sum]
  apply Finset.sum_congr rfl
  intro i hi
  rw [h i (Finset.mem_range.mp hi)]

theorem chunk_at_agree (mem1 mem2 : Nat → Nat) (off : Nat)
    (h : ∀ j < 8, mem1 (off + j) = mem2 (off + j)) :
    chunk_at mem1 off = chunk_at mem2 off := by
  unfold chunk_at chunk_bytes
  exact congrArg ofBytes (List.map_congr_left fun j hj => h j (List.mem_range.mp hj))

theorem count_bits_kernel_agree (func : Nat → Nat) (mem1 mem2 : Nat → Nat) (n : Nat)
    (h : ∀ i < n, mem1 i = mem2 i) :
    count_bits_kernel func mem1 n = count_bits_kernel func mem2 n := by
  simp only [count_bits_kernel, chunk_size]
  rw [foldl_range_add (fun i => func (chunk_at mem1 (i * 8))) _ 0,
    foldl_range_add (fun i => func (chunk_at mem2 (i * 8))) _ 0]
  have hch : ∑ i ∈ Finset.range (n / 8), func (chunk_at mem1 (i * 8))
      = ∑ i ∈ Finset.range (n / 8), func (chunk_at mem2 (i * 8)) := by
    apply Finset.sum_congr rfl
    intro i hi
    rw [chunk_at_agree mem1 mem2 (i * 8)]
    intro j hj
    apply h
    have hi2 := Finset.mem_range.mp hi
    have h1 : i * 8 + 8 ≤ n / 8 * 8 := by
      calc i * 8 + 8 = (i + 1) * 8 := by ring
      _ ≤ n / 8 * 8 := Nat.mul_le_mul_right 8 hi2
    have h2 : n / 8 * 8 ≤ n := Nat.div_mul_le_self n 8
    omega
  have ht : count_bits_naive (shiftMem mem1 (n / 8 * 8)) (n - n / 8 * 8)
      = count_bits_naive (shiftMem mem2 (n / 8 * 8)) (n - n / 8 * 8) := by
    apply count_bits_naive_agree
    intro i hi
    unfold shiftMem
    apply h
    have h2 : n / 8 * 8 ≤ n := Nat.div_mul_le_self n 8
    omega
  rw [hch, ht]

theorem count_bits_kernel2_agree (f1 f2 : Nat → Nat) (n1 n2 T : Nat) (hT : 1 ≤ T)
    (mem1 mem2 : Nat → Nat) (n : Nat) (h : ∀ i < n, mem1 i = mem2 i) :
    count_bits_kernel2 f1 f2 n1 n2 T mem1 n = count_bits_kernel2 f1 f2 n1 n2 T mem2 n := by
  simp only [count_bits_kernel2, chunk_size]
  rw [foldl_range_add
    (fun t => if t < T / (n1 + n2) then
        threadSum f1 mem1 (static_chunk_start t T (n / 8)) (static_chunk_size t T (n / 8))
      else
        threadSum f2 mem1 (static_chunk_start t T (n / 8)) (static_chunk_size t T (n / 8))) _ 0,
    foldl_range_add
    (fun t => if t < T / (n1 + n2) then
        threadSum f1 mem2 (static_chunk_start t T (n / 8)) (static_chunk_size t T (n / 8))
      else
        threadSum f2 mem2 (static_chunk_start t T (n / 8)) (static_chunk_size t T (n / 8))) _ 0]
  have hts : ∀ (f : Nat → Nat) (t : Nat), t < T →
      threadSum f mem1 (static_chunk_start t T (n / 8)) (static_chunk_size t T (n / 8))
        = threadSum f mem2 (static_chunk_start t T (n / 8)) (static_chunk_size t T (n / 8)) := by
    intro f t ht
    rw [threadSum_eq, threadSum_eq]
    apply Finset.sum_congr rfl
    intro j hj
    rw [chunk_at_agree mem1 mem2 _]
    intro jj hjj
    apply h
    have hsl : static_chunk_start t T (n / 8) + j < n / 8 :=
      slice_in_range t T (n / 8) ht j (Finset.mem_range.mp hj) hT
    have h1 : (static_chunk_start t T (n / 8) + j) * 8 + 8 ≤ n / 8 * 8 := by
      calc (static_chunk_start t T (n / 8) + j) * 8 + 8
          = (static_chunk_start t T (n / 8) + j + 1) * 8 := by ring
      _ ≤ n / 8 * 8 := Nat.mul_le_mul_right 8 hsl
    have h2 : n / 8 * 8 ≤ n := Nat.div_mul_le_self n 8
    omega
  have hsum : ∀ t ∈ Finset.range T,
      (if t < T / (n1 + n2) then
          threadSum f1 mem1 (static_chunk_start t T (n / 8)) (static_chunk_size t T (n / 8))
        else
          threadSum f2 mem1 (static_chunk_start t T (n / 8)) (static_chunk_size t T (n / 8)))
        = (if t < T / (n1 + n2) then
          threadSum f1 mem2 (static_chunk_start t T (n / 8)) (static_chunk_size t T (n / 8))
        else
          threadSum f2 mem2 (static_chunk_start t T (n / 8)) (static_chunk_size t T (n / 8))) := by
    intro t ht
    by_cases hcase : t < T / (n1 + n2)
    · rw [if_pos hcase, if_pos hcase, hts f1 t (Finset.mem_range.mp ht)]
    · rw [if_neg hcase, if_neg hcase, hts f2 t (Finset.mem_range.mp ht)]
  rw [Finset.sum_congr rfl hsum]
  have ht2 : count_bits_naive (shiftMem mem1 (n / 8 * 8)) (n - n / 8 * 8)
      = count_bits_naive (shiftMem mem2 (n / 8 * 8)) (n - n / 8 * 8) := by
    apply count_bits_naive_agree
    intro i hi
    unfold shiftMem
    apply h
    have h2 : n / 8 * 8 ≤ n := Nat.div_mul_le_self n 8
    omega
  rw [ht2]

theorem count_bits_asm_agree (mem1 mem2 : Nat → Nat) (n num_cores : Nat)
    (h : ∀ i < n, mem1 i = mem2 i) :
    count_bits_asm mem1 n num_cores = count_bits_asm mem2 n num_cores := by
  simp only [count_bits_asm, chunk_size]
  set cpc := n / 8 / num_cores with hcpc
  rw [foldl_range_add
    (fun core => count_bits_asm_chunked (shiftMem mem1 (core * (cpc * 8))) (cpc * 8)) _ 0,
    foldl_range_add
    (fun core => count_bits_asm_chunked (shiftMem mem2 (core * (cpc * 8))) (cpc * 8)) _ 0]
  have hcpcn : num_cores * (cpc * 8) ≤ n := by
    have h3 : num_cores * cpc ≤ n / 8 := by
      rw [hcpc, Nat.mul_comm]
      exact Nat.div_mul_le_self (n / 8) num_cores
    have h4 : n / 8 * 8 ≤ n := Nat.div_mul_le_self n 8
    calc num_cores * (cpc * 8) = num_cores * cpc * 8 := by ring
    _ ≤ n / 8 * 8 := Nat.mul_le_mul_right 8 h3
    _ ≤ n := h4
  have hch : ∀ core ∈ Finset.range num_cores,
      count_bits_asm_chunked (shiftMem mem1 (core * (cpc * 8))) (cpc * 8)
        = count_bits_asm_chunked (shiftMem mem2 (core * (cpc * 8))) (cpc * 8) := by
    intro core hcore
    have hcore2 := Finset.mem_range.mp hcore
    rw [asm_chunked_sum, asm_chunked_sum]
    apply Finset.sum_congr rfl
    intro i hi
    have hi2 : i < cpc := by
      have := Finset.mem_range.mp hi
      omega
    rw [chunk_at_shift, chunk_at_shift, chunk_at_agree mem1 mem2 _]
    intro j hj
    apply h
    have h1 : core * (cpc * 8) + (i * 8 + 8) ≤ num_cores * (cpc * 8) := by
      have h5 : i * 8 + 8 ≤ cpc * 8 := by
        calc i * 8 + 8 = (i + 1) * 8 := by ring
        _ ≤ cpc * 8 := Nat.mul_le_mul_right 8 hi2
      have h6 : core * (cpc * 8) + cpc * 8 ≤ num_cores * (cpc * 8) := by
        calc core * (cpc * 8) + cpc * 8 = (core + 1) * (cpc * 8) := by ring
        _ ≤ num_cores * (cpc * 8) := Nat.mul_le_mul_right (cpc * 8) hcore2
      omega
    omega
  rw [Finset.sum_congr rfl hch]
  have ht2 : count_bits_naive (shiftMem mem1 (num_cores * (cpc * 8))) (n - num_cores * (cpc * 8))
      = count_bits_naive (shiftMem mem2 (num_cores * (cpc * 8))) (n - num_cores * (cpc * 8)) := by
    apply count_bits_naive_agree
    intro i hi
    unfold shiftMem
    apply h
    omega
  rw [ht2]

theorem count_bits_naive_empty (mem : Nat → Nat) : count_bits_naive mem 0 = 0 := rfl

theorem count_bits_kernel_empty (func : Nat → Nat) (mem : Nat → Nat) :
    count_bits_kernel func mem 0 = 0 := rfl

theorem static_chunk_size_zero (t T : Nat) : static_chunk_size t T 0 = 0 := by
  unfold static_chunk_size
  simp

theorem count_bits_kernel2_empty (f1 f2 : Nat → Nat) (n1 n2 T : Nat) (mem : Nat → Nat) :
    count_bits_kernel2 f1 f2 n1 n2 T mem 0 = 0 := by
  simp only [count_bits_kernel2, chunk_size]
  rw [foldl_range_add
    (fun t => if t < T / (n1 + n2) then
        threadSum f1 mem (static_chunk_start t T (0 / 8)) (static_chunk_size t T (0 / 8))
      else
        threadSum f2 mem (static_chunk_start t T (0 / 8)) (static_chunk_size t T (0 / 8))) _ 0,
    Nat.zero_add]
  have hz : ∀ t ∈ Finset.range T,
      (if t < T / (n1 + n2) then
          threadSum f1 mem (static_chunk_start t T (0 / 8)) (static_chunk_size t T (0 / 8))
        else
          threadSum f2 mem (static_chunk_start t T (0 / 8)) (static_chunk_size t T (0 / 8)))
        = 0 := by
    intro t _
    have h08 : (0 : Nat) / 8 = 0 := rfl
    rw [h08, static_chunk_size_zero]
    by_cases hcase : t < T / (n1 + n2)
    · rw [if_pos hcase]; rfl
    · rw [if_neg hcase]; rfl
  rw [Finset.sum_congr rfl hz]
  simp only [Finset.sum_const_zero, Nat.zero_add]
  rfl

theorem count_bits_asm_chunked_empty (mem : Nat → Nat) :
    count_bits_asm_chunked mem 0 = 0 := rfl

theorem count_bits_asm_empty (mem : Nat → Nat) (num_cores : Nat) :
    count_bits_asm mem 0 num_cores = 0 := by
  simp only [count_bits_asm, chunk_size]
  have h0 : (0 : Nat) / 8 / num_cores * 8 = 0 := by
    simp
  rw [h0]
  rw [foldl_range_add (fun core => count_bits_asm_chunked (shiftMem mem (core * 0)) 0) _ 0,
    Nat.zero_add]
  have hz : ∀ core ∈ Finset.range num_cores,
      count_bits_asm_chunked (shiftMem mem (core * 0)) 0 = 0 := by
    intro core _
    rfl
  rw [Finset.sum_congr rfl hz]
  simp only [Finset.sum_const_zero, Nat.zero_add]
  rfl

/-- C1: for every buffer of every length (the empty buffer, one byte, one
exact chunk and many chunks plus remainder included), every counting
variant — table, Kernighan, sideways addition, intrinsic, double intrinsic,
ASM (for any positive core count) and the hybrid optimized variant (for any
positive team size) — returns the same total as the reference
`count_bits_naive`. -/
theorem cross_kernel_equivalence (mem : Nat → Nat) (n : Nat)
    (hm : ∀ i < n, mem i < 256) (num_cores T : Nat)
    (hc : 1 ≤ num_cores) (hT : 1 ≤ T) :
    count_bits_table mem n = count_bits_naive mem n
    ∧ count_bits_kernighan mem n = count_bits_naive mem n
    ∧ count_bits_sidewaysaddition mem n = count_bits_naive mem n
    ∧ count_bits_intrinsic mem n = count_bits_naive mem n
    ∧ count_bits_intrinsic_double mem n = count_bits_naive mem n
    ∧ count_bits_asm mem n num_cores = count_bits_naive mem n
    ∧ count_bits_optimized T mem n = count_bits_naive mem n := by
  refine ⟨?_, ?_, ?_, ?_, ?_, ?_, ?_⟩
  · exact kernel_eq_naive table_kernel table_kernel_eq mem n hm
  · exact kernel_eq_naive kernighan_kernel (fun v _ => kernighan_kernel_eq v) mem n hm
  · exact kernel_eq_naive sidewaysaddition_kernel sideways_eq_popcount mem n hm
  · exact kernel_eq_naive intrinsic_kernel (fun v _ => rfl) mem n hm
  · rw [count_bits_intrinsic_double, kernel_double_eq_kernel]
    exact kernel_eq_naive intrinsic_kernel_double (fun v _ => rfl) mem n hm
  · exact asm_eq_naive mem n num_cores hc hm
  · exact kernel2_eq_naive intrinsic_kernel sidewaysaddition_kernel 1 1 T
      (fun v _ => rfl) sideways_eq_popcount hT mem n hm

set_option maxRecDepth 40000 in
/-- C1 witness: all seven variants evaluated on a concrete 29-byte buffer
with two cores and three threads. -/
theorem cross_kernel_equivalence_witness :
    (∀ i < 29, (fun i => (i * 37 + 11) % 256 : Nat → Nat) i < 256) ∧ (1 ≤ 2) ∧ (1 ≤ 3)
    ∧ (count_bits_table (fun i => (i * 37 + 11) % 256) 29
        = count_bits_naive (fun i => (i * 37 + 11) % 256) 29
      ∧ count_bits_kernighan (fun i => (i * 37 + 11) % 256) 29
        = count_bits_naive (fun i => (i * 37 + 11) % 256) 29
      ∧ count_bits_sidewaysaddition (fun i => (i * 37 + 11) % 256) 29
        = count_bits_naive (fun i => (i * 37 + 11) % 256) 29
      ∧ count_bits_intrinsic (fun i => (i * 37 + 11) % 256) 29
        = count_bits_naive (fun i => (i * 37 + 11) % 256) 29
      ∧ count_bits_intrinsic_double (fun i => (i * 37 + 11) % 256) 29
        = count_bits_naive (fun i => (i * 37 + 11) % 256) 29
      ∧ count_bits_asm (fun i => (i * 37 + 11) % 256) 29 2
        = count_bits_naive (fun i => (i * 37 + 11) % 256) 29
      ∧ count_bits_optimized 3 (fun i => (i * 37 + 11) % 256) 29
        = count_bits_naive (fun i => (i * 37 + 11) % 256) 29) :=
  ⟨by decide, by decide, by decide,
    cross_kernel_equivalence (fun i => (i * 37 + 11) % 256) 29 (by decide) 2 3
      (by decide) (by decide)⟩

set_option maxRecDepth 40000 in
/-- C4: after `init_lookup_table` runs, entry `i` of the table equals the
naive bit count of the single byte `i` for every `i` in 0..255, and
`table_kernel` computes its result purely as the sum of table entries over
the chunk's 8 bytes (the table model is an immutable function, matching the
build-once, read-only-thereafter lifecycle). -/
theorem lookup_table_correct :
    (∀ i < 256, lookup_table i = count_bits_naive (fun _ => i) 1)
    ∧ ∀ chunk : Nat, table_kernel chunk
        = (List.range 8).foldl
            (fun total byte => total + lookup_table (chunk / 256 ^ byte % 256)) 0 := by
  constructor
  · decide
  · intro chunk
    rfl

/-- C4 witness: the table entry of byte 0b10110001. -/
theorem lookup_table_correct_witness :
    (177 < 256) ∧ lookup_table 177 = count_bits_naive (fun _ => 177) 1 :=
  ⟨by decide, lookup_table_correct.1 177 (by decide)⟩

/-- C5: for every 64-bit chunk pattern (top bit set included), the
Kernighan loop terminates within `popcount` iterations (`some` result with
exactly that much fuel), its result is the population count (so the
iteration count equals the number of set bits, not the word width), and
each `chunk &= chunk - 1` step clears exactly the lowest set bit, strictly
decreasing the value and the set-bit count. -/
theorem kernighan_terminates_correct (v : Nat) (_hv : v < 2 ^ 64) :
    kernighanLoop (popcount v) v 0 = some (popcount v)
    ∧ kernighan_kernel v = popcount v
    ∧ (v ≠ 0 → v &&& (v - 1) < v
        ∧ popcount (v &&& (v - 1)) + 1 = popcount v
        ∧ ∃ k, Nat.testBit v k = true ∧ (∀ j < k, Nat.testBit v j = false)
            ∧ v &&& (v - 1) = v - 2 ^ k) := by
  refine ⟨by simpa using kernighanLoop_correct (popcount v) v 0 le_rfl,
    kernighan_kernel_eq v, ?_⟩
  intro hv0
  exact ⟨and_pred_lt v hv0, popcount_and_pred v hv0, and_pred_clears_lowest v hv0⟩

/-- C5 witness: the pattern 2^63 + 6 (top bit set). -/
theorem kernighan_terminates_correct_witness :
    (2 ^ 63 + 6 < 2 ^ 64)
    ∧ (kernighanLoop (popcount (2 ^ 63 + 6)) (2 ^ 63 + 6) 0 = some (popcount (2 ^ 63 + 6))
      ∧ kernighan_kernel (2 ^ 63 + 6) = popcount (2 ^ 63 + 6)
      ∧ (2 ^ 63 + 6 ≠ 0 → (2 ^ 63 + 6) &&& (2 ^ 63 + 6 - 1) < 2 ^ 63 + 6
          ∧ popcount ((2 ^ 63 + 6) &&& (2 ^ 63 + 6 - 1)) + 1 = popcount (2 ^ 63 + 6)
          ∧ ∃ k, Nat.testBit (2 ^ 63 + 6) k = true
              ∧ (∀ j < k, Nat.testBit (2 ^ 63 + 6) j = false)
              ∧ (2 ^ 63 + 6) &&& (2 ^ 63 + 6 - 1) = 2 ^ 63 + 6 - 2 ^ k)) :=
  ⟨by decide, kernighan_terminates_correct (2 ^ 63 + 6) (by decide)⟩

/-- C10: the sideways-addition kernel copies the chunk into a signed long
and shifts arithmetically, yet the masks B1 and B2 zero every
sign-extension bit the shifts inject (the masked arithmetic shift equals
the masked logical shift for every 64-bit pattern), and the kernel returns
the exact population count of every 64-bit input, top bit set or not. -/
theorem sideways_sign_extension_exact (v : Nat) (hv : v < 2 ^ 64) :
    asr64 v 1 &&& B1 = v / 2 &&& B1
    ∧ asr64 v 2 &&& B2 = v / 4 &&& B2
    ∧ sidewaysaddition_kernel v = popcount v :=
  ⟨asr64_and_B1 v hv, asr64_and_B2 v hv, sideways_eq_popcount v hv⟩

/-- C10 witness: the all-ones pattern, where every shift sign-extends. -/
theorem sideways_sign_extension_exact_witness :
    (2 ^ 64 - 1 < 2 ^ 64)
    ∧ (asr64 (2 ^ 64 - 1) 1 &&& B1 = (2 ^ 64 - 1) / 2 &&& B1
      ∧ asr64 (2 ^ 64 - 1) 2 &&& B2 = (2 ^ 64 - 1) / 4 &&& B2
      ∧ sidewaysaddition_kernel (2 ^ 64 - 1) = popcount (2 ^ 64 - 1)) :=
  ⟨by decide, sideways_sign_extension_exact (2 ^ 64 - 1) (by decide)⟩

/-- C2 counterexample: with 2 cores and a 24-byte buffer, `count_bits_asm`
computes `chunks_per_core = 1`, covers only 16 bytes with the kernel and
hands `asm_leftover 24 2 = 8` bytes — a whole chunk — to the naive method,
not `24 % chunk_size = 0` bytes, so the tail-handling policy is not the
same as in `count_bits_kernel`. -/
theorem asm_tail_not_mod_chunk :
    asm_leftover 24 2 = 8 ∧ (24 : Nat) % chunk_size = 0
    ∧ asm_leftover 24 2 ≠ 24 % chunk_size
    ∧ count_bits_asm (fun _ => 255) 24 2
      = (List.range 2).foldl
          (fun total core => total + count_bits_asm_chunked
            (shiftMem (fun _ => 255) (core * (24 / chunk_size / 2 * chunk_size)))
            (24 / chunk_size / 2 * chunk_size)) 0
        + count_bits_naive
            (shiftMem (fun _ => 255) (2 * (24 / chunk_size / 2 * chunk_size)))
            (asm_leftover 24 2) := by
  refine ⟨by decide, by decide, by decide, rfl⟩

/-- C2 amended: the generic chunked harness (and the double-chunk harness,
which equals it) processes exactly `bufsize / chunk_size` whole chunks with
the kernel and exactly `bufsize % chunk_size` bytes with the naive method;
`count_bits_asm` instead leaves `asm_leftover bufsize num_cores =
bufsize - num_cores * (bufsize / chunk_size / num_cores) * chunk_size`
bytes to the naive method, which can include whole chunks; every byte is
still counted exactly once by both harnesses (their totals equal the naive
count). -/
theorem tail_handling_amended (func : Nat → Nat) (mem : Nat → Nat) (n num_cores : Nat)
    (hf : ∀ v < 2 ^ 64, func v = popcount v) (hm : ∀ i < n, mem i < 256)
    (hc : 1 ≤ num_cores) :
    count_bits_kernel func mem n
      = (List.range (n / chunk_size)).foldl
          (fun total i => total + func (chunk_at mem (i * chunk_size))) 0
        + count_bits_naive (shiftMem mem (n / chunk_size * chunk_size)) (n % chunk_size)
    ∧ count_bits_kernel_double func mem n = count_bits_kernel func mem n
    ∧ count_bits_asm mem n num_cores
      = (List.range num_cores).foldl
          (fun total core => total + count_bits_asm_chunked
            (shiftMem mem (core * (n / chunk_size / num_cores * chunk_size)))
            (n / chunk_size / num_cores * chunk_size)) 0
        + count_bits_naive
            (shiftMem mem (num_cores * (n / chunk_size / num_cores * chunk_size)))
            (asm_leftover n num_cores)
    ∧ count_bits_kernel func mem n = count_bits_naive mem n
    ∧ count_bits_asm mem n num_cores = count_bits_naive mem n := by
  refine ⟨?_, kernel_double_eq_kernel func mem n, rfl,
    kernel_eq_naive func hf mem n hm, asm_eq_naive mem n num_cores hc hm⟩
  have hmod : n - n / chunk_size * chunk_size = n % chunk_size := by
    have hcs : chunk_size = 8 := rfl
    rw [hcs]
    omega
  simp only [count_bits_kernel]
  rw [hmod]

set_option maxRecDepth 8000 in
/-- C2 witness for the amended claim: 20-byte buffer, 2 cores, popcount as
the kernel. -/
theorem tail_handling_amended_witness :
    (∀ v < 2 ^ 64, popcount v = popcount v)
    ∧ (∀ i < 20, (fun _ => 200 : Nat → Nat) i < 256) ∧ (1 ≤ 2)
    ∧ (count_bits_kernel popcount (fun _ => 200) 20
        = (List.range (20 / chunk_size)).foldl
            (fun total i => total + popcount (chunk_at (fun _ => 200) (i * chunk_size))) 0
          + count_bits_naive (shiftMem (fun _ => 200) (20 / chunk_size * chunk_size))
              (20 % chunk_size)
      ∧ count_bits_kernel_double popcount (fun _ => 200) 20
        = count_bits_kernel popcount (fun _ => 200) 20
      ∧ count_bits_asm (fun _ => 200) 20 2
        = (List.range 2).foldl
            (fun total core => total + count_bits_asm_chunked
              (shiftMem (fun _ => 200) (core * (20 / chunk_size / 2 * chunk_size)))
              (20 / chunk_size / 2 * chunk_size)) 0
          + count_bits_naive
              (shiftMem (fun _ => 200) (2 * (20 / chunk_size / 2 * chunk_size)))
              (asm_leftover 20 2)
      ∧ count_bits_kernel popcount (fun _ => 200) 20 = count_bits_naive (fun _ => 200) 20
      ∧ count_bits_asm (fun _ => 200) 20 2 = count_bits_naive (fun _ => 200) 20) :=
  ⟨fun _ _ => rfl, by decide, by decide,
    tail_handling_amended popcount (fun _ => 200) 20 2 (fun _ _ => rfl)
      (by decide) (by decide)⟩

/-- C3: every buffer access of every counting harness is a read of an
address inside `[0, bufsize)` (the traces contain only in-bounds read
events); consequently each counting function depends only on the bytes
below `bufsize`; and on an empty buffer every counting function returns 0
without touching memory — `count_bits_asm_chunked` included, whose loop is
guarded against zero iterations. -/
theorem no_out_of_bounds_access (func f1 f2 : Nat → Nat) (n1 n2 : Nat)
    (mem mem1 mem2 : Nat → Nat) (n T num_cores : Nat)
    (hT : 1 ≤ T) (_hc : 1 ≤ num_cores) :
    (∀ e ∈ naive_accesses 0 n, ∃ a, a < n ∧ e = MemEvent.read a)
    ∧ (∀ e ∈ kernel_accesses n, ∃ a, a < n ∧ e = MemEvent.read a)
    ∧ (∀ e ∈ kernel2_accesses T n, ∃ a, a < n ∧ e = MemEvent.read a)
    ∧ (∀ e ∈ asm_accesses n num_cores, ∃ a, a < n ∧ e = MemEvent.read a)
    ∧ ((∀ i < n, mem1 i = mem2 i) →
        count_bits_naive mem1 n = count_bits_naive mem2 n)
    ∧ ((∀ i < n, mem1 i = mem2 i) →
        count_bits_kernel func mem1 n = count_bits_kernel func mem2 n)
    ∧ ((∀ i < n, mem1 i = mem2 i) →
        count_bits_kernel2 f1 f2 n1 n2 T mem1 n = count_bits_kernel2 f1 f2 n1 n2 T mem2 n)
    ∧ ((∀ i < n, mem1 i = mem2 i) →
        count_bits_asm mem1 n num_cores = count_bits_asm mem2 n num_cores)
    ∧ count_bits_naive mem 0 = 0
    ∧ count_bits_kernel func mem 0 = 0
    ∧ count_bits_kernel2 f1 f2 n1 n2 T mem 0 = 0
    ∧ count_bits_asm mem 0 num_cores = 0
    ∧ count_bits_asm_chunked mem 0 = 0 := by
  refine ⟨?_, kernel_accesses_reads n, kernel2_accesses_reads T n hT,
    asm_accesses_reads n num_cores,
    count_bits_naive_agree mem1 mem2 n,
    count_bits_kernel_agree func mem1 mem2 n,
    count_bits_kernel2_agree f1 f2 n1 n2 T hT mem1 mem2 n,
    count_bits_asm_agree mem1 mem2 n num_cores,
    count_bits_naive_empty mem,
    count_bits_kernel_empty func mem,
    count_bits_kernel2_empty f1 f2 n1 n2 T mem,
    count_bits_asm_empty mem num_cores,
    count_bits_asm_chunked_empty mem⟩
  intro e he
  obtain ⟨a, ha1, ha2, rfl⟩ := naive_accesses_reads 0 n e he
  exact ⟨a, by omega, rfl⟩

/-- C3 witness: concrete 9-byte buffers, two threads and two cores. -/
theorem no_out_of_bounds_access_witness :
    (1 ≤ 2) ∧ (1 ≤ 2)
    ∧ ((∀ e ∈ naive_accesses 0 9, ∃ a, a < 9 ∧ e = MemEvent.read a)
    ∧ (∀ e ∈ kernel_accesses 9, ∃ a, a < 9 ∧ e = MemEvent.read a)
    ∧ (∀ e ∈ kernel2_accesses 2 9, ∃ a, a < 9 ∧ e = MemEvent.read a)
    ∧ (∀ e ∈ asm_accesses 9 2, ∃ a, a < 9 ∧ e = MemEvent.read a)
    ∧ ((∀ i < 9, (fun j => j : Nat → Nat) i = (fun j => j + 0 : Nat → Nat) i) →
        count_bits_naive (fun j => j) 9 = count_bits_naive (fun j => j + 0) 9)
    ∧ ((∀ i < 9, (fun j => j : Nat → Nat) i = (fun j => j + 0 : Nat → Nat) i) →
        count_bits_kernel popcount (fun j => j) 9 = count_bits_kernel popcount (fun j => j + 0) 9)
    ∧ ((∀ i < 9, (fun j => j : Nat → Nat) i = (fun j => j + 0 : Nat → Nat) i) →
        count_bits_kernel2 popcount popcount 1 1 2 (fun j => j) 9
          = count_bits_kernel2 popcount popcount 1 1 2 (fun j => j + 0) 9)
    ∧ ((∀ i < 9, (fun j => j : Nat → Nat) i = (fun j => j + 0 : Nat → Nat) i) →
        count_bits_asm (fun j => j) 9 2 = count_bits_asm (fun j => j + 0) 9 2)
    ∧ count_bits_naive (fun j => j) 0 = 0
    ∧ count_bits_kernel popcount (fun j => j) 0 = 0
    ∧ count_bits_kernel2 popcount popcount 1 1 2 (fun j => j) 0 = 0
    ∧ count_bits_asm (fun j => j) 0 2 = 0
    ∧ count_bits_asm_chunked (fun j => j) 0 = 0) :=
  ⟨by decide, by decide,
    no_out_of_bounds_access popcount popcount popcount 1 1
      (fun j => j) (fun j => j) (fun j => j + 0) 9 2 2 (by decide) (by decide)⟩

theorem naive_accesses_readonly (off n : Nat) :
    ∀ e ∈ naive_accesses off n, ∃ a, e = MemEvent.read a := by
  intro e he
  obtain ⟨a, _, _, rfl⟩ := naive_accesses_reads off n e he
  exact ⟨a, rfl⟩

theorem kernel_accesses_readonly (n : Nat) :
    ∀ e ∈ kernel_accesses n, ∃ a, e = MemEvent.read a := by
  intro e he
  obtain ⟨a, _, rfl⟩ := kernel_accesses_reads n e he
  exact ⟨a, rfl⟩

theorem kernel2_accesses_readonly (T n : Nat) :
    ∀ e ∈ kernel2_accesses T n, ∃ a, e = MemEvent.read a := by
  intro e he
  unfold kernel2_accesses at he
  rcases List.mem_append.mp he with hc | ht
  · obtain ⟨t, _, he2⟩ := List.mem_flatMap.mp hc
    obtain ⟨j, _, he3⟩ := List.mem_flatMap.mp he2
    obtain ⟨a, _, _, rfl⟩ := chunk_accesses_reads _ e he3
    exact ⟨a, rfl⟩
  · obtain ⟨a, _, _, rfl⟩ := naive_accesses_reads _ _ e ht
    exact ⟨a, rfl⟩

theorem asm_accesses_readonly (n num_cores : Nat) :
    ∀ e ∈ asm_accesses n num_cores, ∃ a, e = MemEvent.read a := by
  intro e he
  obtain ⟨a, _, rfl⟩ := asm_accesses_reads n num_cores e he
  exact ⟨a, rfl⟩

/-- C6: the parallel totals are bit-exact and independent of the thread
count and the scheduling: any contiguous, non-overlapping per-thread
partition of the chunk range (any `sizes` summing to the chunk count)
gives the sequential total, any two partitions agree, combining the
thread-private partial sums in any order (any permutation) gives the same
grand total, and `count_bits_asm` returns the same total for any two
positive core counts. Only integer addition is involved. -/
theorem thread_count_invariance (func : Nat → Nat) (mem : Nat → Nat) (n : Nat)
    (sizes sizes' : List Nat)
    (h : sizes.sum = n / chunk_size) (h' : sizes'.sum = n / chunk_size)
    (num_cores num_cores' : Nat) (hc : 1 ≤ num_cores) (hc' : 1 ≤ num_cores')
    (hm : ∀ i < n, mem i < 256) :
    count_bits_kernel_threads func mem n sizes = count_bits_kernel func mem n
    ∧ count_bits_kernel_threads func mem n sizes
        = count_bits_kernel_threads func mem n sizes'
    ∧ (∀ l : List Nat, (partialSums func mem 0 sizes).Perm l →
        l.sum = (partialSums func mem 0 sizes).sum)
    ∧ count_bits_asm mem n num_cores = count_bits_asm mem n num_cores' := by
  refine ⟨kernel_threads_eq func mem n sizes h, ?_, ?_, ?_⟩
  · rw [kernel_threads_eq func mem n sizes h, kernel_threads_eq func mem n sizes' h']
  · intro l hp
    exact hp.sum_eq.symm
  · rw [asm_eq_naive mem n num_cores hc hm, asm_eq_naive mem n num_cores' hc' hm]

set_option maxRecDepth 8000 in
/-- C6 witness: a 20-byte buffer split 1+1 or 2+0 chunks per thread, with
one and with three cores. -/
theorem thread_count_invariance_witness :
    ([1, 1].sum = 20 / chunk_size) ∧ ([2].sum = 20 / chunk_size)
    ∧ (1 ≤ 1) ∧ (1 ≤ 3) ∧ (∀ i < 20, (fun _ => 99 : Nat → Nat) i < 256)
    ∧ (count_bits_kernel_threads popcount (fun _ => 99) 20 [1, 1]
        = count_bits_kernel popcount (fun _ => 99) 20
      ∧ count_bits_kernel_threads popcount (fun _ => 99) 20 [1, 1]
        = count_bits_kernel_threads popcount (fun _ => 99) 20 [2]
      ∧ (∀ l : List Nat, (partialSums popcount (fun _ => 99) 0 [1, 1]).Perm l →
          l.sum = (partialSums popcount (fun _ => 99) 0 [1, 1]).sum)
      ∧ count_bits_asm (fun _ => 99) 20 1 = count_bits_asm (fun _ => 99) 20 3) :=
  ⟨by decide, by decide, by decide, by decide, by decide,
    thread_count_invariance popcount (fun _ => 99) 20 [1, 1] [2]
      (by decide) (by decide) 1 3 (by decide) (by decide) (by decide)⟩

/-- C7: no counting harness ever mutates the buffer: every access in every
harness trace is a read event, replaying the trace writes leaves the
memory byte-for-byte identical, and counting the same buffer again after a
counting call (against the replayed memory) returns the same result. -/
theorem buffer_never_mutated (func f1 f2 : Nat → Nat) (n1 n2 : Nat) (mem : Nat → Nat)
    (n T num_cores : Nat) :
    (∀ e ∈ naive_accesses 0 n, ∃ a, e = MemEvent.read a)
    ∧ (∀ e ∈ kernel_accesses n, ∃ a, e = MemEvent.read a)
    ∧ (∀ e ∈ kernel2_accesses T n, ∃ a, e = MemEvent.read a)
    ∧ (∀ e ∈ asm_accesses n num_cores, ∃ a, e = MemEvent.read a)
    ∧ replayWrites (naive_accesses 0 n) mem = mem
    ∧ replayWrites (kernel_accesses n) mem = mem
    ∧ replayWrites (kernel2_accesses T n) mem = mem
    ∧ replayWrites (asm_accesses n num_cores) mem = mem
    ∧ count_bits_naive (replayWrites (naive_accesses 0 n) mem) n
        = count_bits_naive mem n
    ∧ count_bits_kernel func (replayWrites (kernel_accesses n) mem) n
        = count_bits_kernel func mem n
    ∧ count_bits_kernel2 f1 f2 n1 n2 T (replayWrites (kernel2_accesses T n) mem) n
        = count_bits_kernel2 f1 f2 n1 n2 T mem n
    ∧ count_bits_asm (replayWrites (asm_accesses n num_cores) mem) n num_cores
        = count_bits_asm mem n num_cores := by
  have h1 := replayWrites_of_reads _ (naive_accesses_readonly 0 n) mem
  have h2 := replayWrites_of_reads _ (kernel_accesses_readonly n) mem
  have h3 := replayWrites_of_reads _ (kernel2_accesses_readonly T n) mem
  have h4 := replayWrites_of_reads _ (asm_accesses_readonly n num_cores) mem
  refine ⟨naive_accesses_readonly 0 n, kernel_accesses_readonly n,
    kernel2_accesses_readonly T n, asm_accesses_readonly n num_cores,
    h1, h2, h3, h4, ?_, ?_, ?_, ?_⟩
  · rw [h1]
  · rw [h2]
  · rw [h3]
  · rw [h4]

/-- C7 witness: a concrete 11-byte buffer, two threads, two cores. -/
theorem buffer_never_mutated_witness :
    (∀ e ∈ naive_accesses 0 11, ∃ a, e = MemEvent.read a)
    ∧ (∀ e ∈ kernel_accesses 11, ∃ a, e = MemEvent.read a)
    ∧ (∀ e ∈ kernel2_accesses 2 11, ∃ a, e = MemEvent.read a)
    ∧ (∀ e ∈ asm_accesses 11 2, ∃ a, e = MemEvent.read a)
    ∧ replayWrites (naive_accesses 0 11) (fun _ => 3) = (fun _ => 3)
    ∧ replayWrites (kernel_accesses 11) (fun _ => 3) = (fun _ => 3)
    ∧ replayWrites (kernel2_accesses 2 11) (fun _ => 3) = (fun _ => 3)
    ∧ replayWrites (asm_accesses 11 2) (fun _ => 3) = (fun _ => 3)
    ∧ count_bits_naive (replayWrites (naive_accesses 0 11) (fun _ => 3)) 11
        = count_bits_naive (fun _ => 3) 11
    ∧ count_bits_kernel popcount (replayWrites (kernel_accesses 11) (fun _ => 3)) 11
        = count_bits_kernel popcount (fun _ => 3) 11
    ∧ count_bits_kernel2 popcount popcount 1 1 2
          (replayWrites (kernel2_accesses 2 11) (fun _ => 3)) 11
        = count_bits_kernel2 popcount popcount 1 1 2 (fun _ => 3) 11
    ∧ count_bits_asm (replayWrites (asm_accesses 11 2) (fun _ => 3)) 11 2
        = count_bits_asm (fun _ => 3) 11 2 :=
  buffer_never_mutated popcount popcount popcount 1 1 (fun _ => 3) 11 2 2

/-- C8: `main` prints the usage message to standard error and exits with the
nonzero status -1 exactly when the parsed megabytes value is zero; an
omitted argument defaults to 100 megabytes, so the usage branch can only be
reached when an argument is present and `atol` yields zero on it (a zero or
unparsable string). -/
theorem usage_error_iff (arg : Option (List Char)) :
    (main_exit_code arg ≠ 0 ↔ megs_of_data arg = 0)
    ∧ (usage_printed arg = true ↔ megs_of_data arg = 0)
    ∧ megs_of_data none = 100
    ∧ (megs_of_data arg = 0 →
        ∃ s, arg = some s ∧ (atol s % (2 ^ 64 : Int)).toNat = 0)
    ∧ (main_exit_code arg = 0 ∨ main_exit_code arg = -1) := by
  refine ⟨?_, ?_, rfl, ?_, ?_⟩
  · unfold main_exit_code
    by_cases h : megs_of_data arg = 0
    · rw [if_pos h]
      simp [h]
    · rw [if_neg h]
      simp [h]
  · unfold usage_printed
    simp
  · intro h
    match arg with
    | none => simp [megs_of_data] at h
    | some s => exact ⟨s, rfl, h⟩
  · unfold main_exit_code
    by_cases h : megs_of_data arg = 0
    · rw [if_pos h]
      right
      rfl
    · rw [if_neg h]
      left
      rfl

/-- C8 witness: the argument string 0 triggers the usage branch at the
concrete input. -/
theorem usage_error_iff_witness :
    ((main_exit_code (some ['0']) ≠ 0 ↔ megs_of_data (some ['0']) = 0)
    ∧ (usage_printed (some ['0']) = true ↔ megs_of_data (some ['0']) = 0)
    ∧ megs_of_data none = 100
    ∧ (megs_of_data (some ['0']) = 0 →
        ∃ s, some ['0'] = some s ∧ (atol s % (2 ^ 64 : Int)).toNat = 0)
    ∧ (main_exit_code (some ['0']) = 0 ∨ main_exit_code (some ['0']) = -1))
    ∧ main_exit_code (some ['0']) = -1 ∧ megs_of_data (some ['5', '0']) = 50 :=
  ⟨usage_error_iff (some ['0']), by decide, by decide⟩

/-- C9: in the hybrid harness with weights 1 and 1, threads with id below
`T / 2` run kernel A and the rest kernel B over their static-schedule
slices; the slices of a full team partition the chunk range, so the two
loops together cover every chunk exactly once and the total matches the
naive count for every positive team size; when the team is smaller than
`numFunc1 + numFunc2` (a single-threaded run), the A-group is empty —
`T / 2 = 0` — and thread 0's slice is the whole range, so kernel B counts
the entire chunked region alone and the total is still correct. -/
theorem hybrid_partition_correct (T : Nat) (hT : 1 ≤ T) (mem : Nat → Nat) (n : Nat)
    (hm : ∀ i < n, mem i < 256) :
    count_bits_optimized T mem n = count_bits_naive mem n
    ∧ (∀ m : Nat, ∑ t ∈ Finset.range T, static_chunk_size t T m = m)
    ∧ (T < 1 + 1 → T / (1 + 1) = 0)
    ∧ (T = 1 → static_chunk_start 0 T (n / chunk_size) = 0
        ∧ static_chunk_size 0 T (n / chunk_size) = n / chunk_size) := by
  refine ⟨?_, ?_, ?_, ?_⟩
  · exact kernel2_eq_naive intrinsic_kernel sidewaysaddition_kernel 1 1 T
      (fun v _ => rfl) sideways_eq_popcount hT mem n hm
  · intro m
    have h := slices_sum (fun _ => 1) T m hT
    simpa using h
  · intro h
    exact Nat.div_eq_of_lt h
  · intro h
    subst h
    refine ⟨static_chunk_start_zero 1 _, ?_⟩
    unfold static_chunk_size
    simp [Nat.mod_one]

set_option maxRecDepth 8000 in
/-- C9 witness: a single-threaded run over a 25-byte buffer. -/
theorem hybrid_partition_correct_witness :
    (1 ≤ 1) ∧ (∀ i < 25, (fun _ => 255 : Nat → Nat) i < 256)
    ∧ (count_bits_optimized 1 (fun _ => 255) 25 = count_bits_naive (fun _ => 255) 25
      ∧ (∀ m : Nat, ∑ t ∈ Finset.range 1, static_chunk_size t 1 m = m)
      ∧ (1 < 1 + 1 → 1 / (1 + 1) = 0)
      ∧ (1 = 1 → static_chunk_start 0 1 (25 / chunk_size) = 0
          ∧ static_chunk_size 0 1 (25 / chunk_size) = 25 / chunk_size)) :=
  ⟨by decide, by decide,
    hybrid_partition_correct 1 (by decide) (fun _ => 255) 25 (by decide)⟩

